import Mathlib

/-!
Shallow embedding of `create_summary.py` (memoriter repository).

Strings are modelled as `List Char`.  Python's regular expressions are
translated into deterministic scanners: every regex used by the source
(`VERSE_NUMBER_RE`, `REFERENCE_RE`, `SENTENCE_SPLIT_RE`, the whitespace
patterns and the token pattern of `re.findall`) is backtracking-free,
because in each of them a greedy quantifier is always followed by a
character class disjoint from the quantified one, so the greedy maximal
munch is the unique match.  Each definition carries a comment naming the
Python line it embeds.
-/

/-- A Python string, as a list of Unicode characters. -/
abbrev Str := List Char

/-- Python `\s` / `str.strip()` whitespace, restricted to the ASCII
whitespace characters (the source texts contain no exotic Unicode spaces). -/
def isWsC (c : Char) : Bool :=
  c = ' ' || c = '\t' || c = '\n' || c = '\r' || c = '\x0b' || c = '\x0c'

/-- Python `\d` (ASCII digits). -/
def isDigitC (c : Char) : Bool := '0' ≤ c && c ≤ '9'

/-- Python `\w` (`re.UNICODE` word character), restricted to the character
ranges occurring in Hungarian scripture text: ASCII alphanumerics, the
underscore, the Latin-1 letters U+00C0..U+00FF (excluding the two signs
U+00D7 `×` and U+00F7 `÷`, which are not alphanumeric) and the Latin
Extended-A letters U+0100..U+017F (covering `ő`, `ű`). -/
def isWordChar (c : Char) : Bool :=
  c.isAlphanum || c = '_' ||
    (0xC0 ≤ c.toNat && c.toNat ≤ 0xFF && c ≠ '×' && c ≠ '÷') ||
    (0x100 ≤ c.toNat && c.toNat ≤ 0x17F)

/-- The character class `[A-Za-zÀ-ÿ]` of `REFERENCE_RE` (note that the
regex range `À-ÿ` is the full code-point range U+00C0..U+00FF, so unlike
`\w` it does include `×` and `÷`). -/
def refLetter (c : Char) : Bool :=
  ('A' ≤ c && c ≤ 'Z') || ('a' ≤ c && c ≤ 'z') || (0xC0 ≤ c.toNat && c.toNat ≤ 0xFF)

/-- A character of a punctuation token of `re.findall(r"\w+(?:-\w+)*|[^\w\s]+", ...)`:
neither a word character nor whitespace. -/
def isPunctC (c : Char) : Bool := !isWordChar c && !isWsC c

/-- A sentence-terminal character of `SENTENCE_SPLIT_RE = (?<=[.!?])\s+`. -/
def isTermC (c : Char) : Bool := c = '.' || c = '!' || c = '?'

/-- Python `str.strip()`: drop leading and trailing whitespace. -/
def pyStrip (l : Str) : Str :=
  (l.dropWhile isWsC).rdropWhile isWsC

/-- Worker for `re.sub(r"\s+", " ", line)`: the flag records whether we are
inside a whitespace run whose replacement `' '` has already been emitted. -/
def collapseAux : Bool → Str → Str
  | _, [] => []
  | inWs, c :: cs =>
    if isWsC c then
      if inWs then collapseAux true cs else ' ' :: collapseAux true cs
    else c :: collapseAux false cs

/-- `re.sub(r"\s+", " ", line)`: replace every maximal whitespace run by a
single space. -/
def collapseWs (l : Str) : Str := collapseAux false l

/-- Replacement for one maximal whitespace run (accumulated in reverse) under
`re.sub(r"\s*\n\s*", " ", text)`: a run containing a newline matches the
pattern (greedy `\s*` backtracks to place `\n` on the run's last newline, so
the whole run is the match) and becomes `" "`; a run without a newline is
left unchanged. -/
def emitRun (pend : Str) : Str :=
  if pend = [] then [] else if pend.contains '\n' then [' '] else pend.reverse

/-- Worker for `re.sub(r"\s*\n\s*", " ", text)`; `pend` is the current
whitespace run, in reverse. -/
def mergeNlAux : Str → Str → Str
  | pend, [] => emitRun pend
  | pend, c :: cs =>
    if isWsC c then mergeNlAux (c :: pend) cs
    else emitRun pend ++ c :: mergeNlAux [] cs

/-- `re.sub(r"\s*\n\s*", " ", text)` — the line-merging step of
`get_first_letters`. -/
def mergeNl (l : Str) : Str := mergeNlAux [] l

/-- `VERSE_NUMBER_RE.sub("", line)` with
`VERSE_NUMBER_RE = ^\s*\d+(?::\d+)?[.\s]*` (anchored, hence at most one
match): leading whitespace, a digit run, an optional `:digits` group, then
a run of periods and whitespace.  If no digit run follows the leading
whitespace there is no match and the line is returned unchanged. -/
def verseSub (l : Str) : Str :=
  let rest := l.dropWhile isWsC
  let ds := rest.takeWhile isDigitC
  if ds = [] then l
  else
    let r1 := rest.dropWhile isDigitC
    let r2 :=
      match r1 with
      | ':' :: t => if t.takeWhile isDigitC = [] then r1 else t.dropWhile isDigitC
      | _ => r1
    r2.dropWhile (fun c => c = '.' || isWsC c)

/-- Attempt to match `REFERENCE_RE = \s*[A-Za-zÀ-ÿ]+\s+\d+\s*,\s*\d+\.?\s*`
at the start of `l`.  On success, return the remainder after the match.
Each quantifier is greedy and deterministic (see module comment). -/
def refMatch (l : Str) : Option Str :=
  let r0 := l.dropWhile isWsC
  if r0.takeWhile refLetter = [] then none
  else
    let r1 := r0.dropWhile refLetter
    if r1.takeWhile isWsC = [] then none
    else
      let r2 := r1.dropWhile isWsC
      if r2.takeWhile isDigitC = [] then none
      else
        match (r2.dropWhile isDigitC).dropWhile isWsC with
        | ',' :: r4 =>
          let r5 := r4.dropWhile isWsC
          if r5.takeWhile isDigitC = [] then none
          else
            let r6 := r5.dropWhile isDigitC
            let r7 := match r6 with | '.' :: t => t | _ => r6
            some (r7.dropWhile isWsC)
        | _ => none

/-- Fuelled worker for `REFERENCE_RE.sub(" ", line)`: scan left to right;
at each position, if the pattern matches, emit `' '` and continue after the
match, otherwise copy one character.  Fuel bounds the number of steps; each
step consumes at least one character, so `length + 1` fuel suffices. -/
def refSubF : Nat → Str → Str
  | 0, l => l
  | _ + 1, [] => []
  | fuel + 1, c :: cs =>
    match refMatch (c :: cs) with
    | some rest => ' ' :: refSubF fuel rest
    | none => c :: refSubF fuel cs

/-- `REFERENCE_RE.sub(" ", line)`. -/
def refSub (l : Str) : Str := refSubF (l.length + 1) l

/-- `remove_verse_numbers` (create_summary.py line 35):
`VERSE_NUMBER_RE.sub("", line).strip()`. -/
def remove_verse_numbers (line : Str) : Str := pyStrip (verseSub line)

/-- `remove_references` (create_summary.py line 40):
`REFERENCE_RE.sub(" ", line)` followed by `re.sub(r"\s+", " ", line).strip()`. -/
def remove_references (line : Str) : Str := pyStrip (collapseWs (refSub line))

/-- Fuelled splitter for `SENTENCE_SPLIT_RE.split(merged)` with
`SENTENCE_SPLIT_RE = (?<=[.!?])\s+`: split wherever a terminal character is
immediately followed by whitespace, discarding the (maximal) whitespace run. -/
def sentSplitF : Nat → Str → List Str
  | 0, l => [l]
  | _ + 1, [] => [[]]
  | _ + 1, [c] => [[c]]
  | fuel + 1, c :: d :: cs =>
    if isTermC c && isWsC d then
      [c] :: sentSplitF fuel ((d :: cs).dropWhile isWsC)
    else
      match sentSplitF fuel (d :: cs) with
      | [] => [[c]]
      | s :: ss => (c :: s) :: ss

/-- `re.split(SENTENCE_SPLIT_RE, merged)`. -/
def sentSplit (l : Str) : List Str := sentSplitF (l.length + 1) l

/-- Fuelled scanner for one word token `\w+(?:-\w+)*`: a word-character run,
then repeatedly a hyphen followed by a further word-character run (the
hyphen is consumed only if at least one word character follows, matching
the backtracking semantics of the regex).  Returns the token and the
remainder. -/
def wordTokF : Nat → Str → Str × Str
  | 0, l => ([], l)
  | fuel + 1, l =>
    match l.dropWhile isWordChar with
    | c :: r2 =>
      if c = '-' && !(r2.takeWhile isWordChar).isEmpty then
        (l.takeWhile isWordChar ++ '-' :: (wordTokF fuel r2).1, (wordTokF fuel r2).2)
      else (l.takeWhile isWordChar, c :: r2)
    | [] => (l.takeWhile isWordChar, [])

/-- One word token `\w+(?:-\w+)*` and the remainder of the line. -/
def wordTok (l : Str) : Str × Str := wordTokF l.length l

/-- Fuelled scanner for `re.findall(r"\w+(?:-\w+)*|[^\w\s]+", line)`:
skip whitespace; at a word character take a word token; otherwise take a
maximal punctuation run. -/
def tokF : Nat → Str → List Str
  | 0, _ => []
  | _ + 1, [] => []
  | fuel + 1, c :: cs =>
    if isWsC c then tokF fuel cs
    else if isWordChar c then
      (wordTok (c :: cs)).1 :: tokF fuel (wordTok (c :: cs)).2
    else
      (c :: cs).takeWhile isPunctC :: tokF fuel ((c :: cs).dropWhile isPunctC)

/-- `re.findall(r"\w+(?:-\w+)*|[^\w\s]+", line)`. -/
def tokenize (l : Str) : List Str := tokF (l.length + 1) l

/-- `HUNGARIAN_DIGRAPHS = ("cs", "gy", "ly", "ny", "sz", "ty", "zs")`. -/
def HUNGARIAN_DIGRAPHS : List Str :=
  [['c', 's'], ['g', 'y'], ['l', 'y'], ['n', 'y'], ['s', 'z'], ['t', 'y'], ['z', 's']]

/-- `first_letter_or_digraph` (create_summary.py line 24): empty word gives
the empty string; if the lowercased word starts with a Hungarian digraph,
return the first two characters of the original word, otherwise the first
character.  (The loop over the tuple returns on the first prefix hit, which
is equivalent to the `any` test since the result is `word[:2]` either way.) -/
def first_letter_or_digraph (word : Str) : Str :=
  if word = [] then []
  else
    let word_lower := word.map Char.toLower
    if HUNGARIAN_DIGRAPHS.any (fun d => d.isPrefixOf word_lower) then word.take 2
    else word.take 1

/-- `re.match(r"^\w", token)`: does the token start with a word character? -/
def isWordTok (t : Str) : Bool :=
  match t with
  | [] => false
  | c :: _ => isWordChar c

/-- The per-token step of `_first_letters_for_line`: a word token is split on
hyphens, empty segments are dropped, each remaining segment is reduced by
`first_letter_or_digraph`, and the results are rejoined with hyphens; a
punctuation token is kept verbatim. -/
def abbrevToken (token : Str) : Str :=
  if isWordTok token then
    List.intercalate ['-']
      (((token.splitOn '-').filter (fun s => !s.isEmpty)).map first_letter_or_digraph)
  else token

/-- `no_space_before = ".!?,"` (create_summary.py line 63). -/
def noSpaceBeforeStr : Str := ['.', '!', '?', ',']

/-- Python's substring test `p in s` for strings. -/
def pyIn (p : Str) : Str → Bool
  | [] => p.isEmpty
  | c :: cs => p.isPrefixOf (c :: cs) || pyIn p cs

/-- The reassembly loop of `_first_letters_for_line` for parts after the
first: each part is preceded by a space unless it is a substring of
`no_space_before`. -/
def sepPart (p : Str) : Str := if pyIn p noSpaceBeforeStr then p else ' ' :: p

/-- Join the token parts: the first part verbatim, each later part through
`sepPart`. -/
def joinParts : List Str → Str
  | [] => []
  | p :: rest => p ++ rest.flatMap sepPart

/-- `_first_letters_for_line` (create_summary.py line 50). -/
def _first_letters_for_line (line : Str) : Str :=
  joinParts ((tokenize line).map abbrevToken)

/-- The per-sentence body of the loop in `get_first_letters`: strip, skip if
blank, optionally remove verse numbers, optionally remove references, skip
if now blank, abbreviate. -/
def processSentence (remove_verses remove_refs : Bool) (sen : Str) : Option Str :=
  let s1 := pyStrip sen
  if s1 = [] then none
  else
    let s2 := if remove_verses then remove_verse_numbers s1 else s1
    let s3 := if remove_refs then remove_references s2 else s2
    if s3 = [] then none else some ( _first_letters_for_line s3)

/-- `get_first_letters` (create_summary.py line 72).  The Python signature
also has `preserve_structure` and `one_line_per_sentence` parameters, but
the body never reads them, so they are omitted here; `remove_verses` and
`remove_refs` default to `True` in the source and are passed explicitly. -/
def get_first_letters (text : Str) (remove_verses remove_refs : Bool) : Str :=
  let merged := mergeNl (pyStrip text)
  let result_lines := (sentSplit merged).filterMap (processSentence remove_verses remove_refs)
  List.intercalate ['\n'] (result_lines.filter (fun r => !r.isEmpty))

/-- The full pipeline at its default options (the spec's `summarize`). -/
def summarize (text : Str) : Str := get_first_letters text true true

/-- The spec's "starts (case-insensitively) with one of the seven fixed
Hungarian digraphs": the lowercased word has one of `HUNGARIAN_DIGRAPHS`
as a prefix. -/
def startsDigraph (w : Str) : Bool :=
  HUNGARIAN_DIGRAPHS.any (fun d => d.isPrefixOf (w.map Char.toLower))

/-- The property asserted by the spec for the abbreviator's spacing: the
output contains a space immediately before one of `.`, `,`, `!`, `?`. -/
def hasSpaceBeforeTermPunct : Str → Bool
  | a :: b :: t =>
    (a = ' ' && (b = '.' || b = ',' || b = '!' || b = '?')) || hasSpaceBeforeTermPunct (b :: t)
  | _ => false

/-- C1: the full pipeline does NOT remove the parenthesized pause marker
`(Szela.)`; on the input consisting of just this marker the output is
`( Sz .)` instead of being empty, contradicting the repository's own tests
(`test_selah_szela_removed_no_debris` and friends). -/
theorem C1_pause_marker_kept :
    summarize ("(Szela.)".data) = "( Sz .)".data := by decide

/-- C2: `remove_verse_numbers` does NOT remove an embedded mid-line verse
number after a semicolon: the input of the repository's own test
`test_verse_after_semicolon` is returned unchanged (the regex is anchored
at the start of the line). -/
theorem C2_midline_verse_number_kept :
    remove_verse_numbers ("igazat szól; 3 nyelvével nem".data) =
      "igazat szól; 3 nyelvével nem".data := by decide

/-- C4: `remove_references` does NOT recognize the whole-chapter citation
form `Zsolt 101` (book name + single bare number, no comma): the input of
the repository's own test `test_book_single_number_reference` is returned
unchanged (the regex requires a comma and a second number). -/
theorem C4_whole_chapter_reference_kept :
    remove_references ("ha kárt vall is. Zsolt 101".data) =
      "ha kárt vall is. Zsolt 101".data := by decide

/-- C5: the abbreviator has NO special case for quotation marks: on the
input of the repository's own test `test_quotation_marks_spacing` the
opening mark `„` is followed by a space and the closing mark `”` is
preceded by one, giving `A k : „ A sz ” k é d.` instead of the expected
`A k: „A sz” k é d.`. -/
theorem C5_quotation_marks_not_tight :
    summarize ("A karmesternek: „A szőlőtaposók” kezdetű ének dallamára.".data) =
      "A k : „ A sz ” k é d.".data := by decide

/-- C6: the orchestrator applies the verse-number stripper BEFORE the
reference stripper and has no pause-marker pass at all; consequently on
`(Szela.) 7 Emeljétek föl fejeteket!` the marker survives and the verse
number `7` is not stripped, contradicting the repository's own
`test_selah_szela_removed_no_debris` (which requires the pause marker to be
removed before verse-number stripping so that `7` is also removed). -/
theorem C6_pass_order_observed :
    summarize ("(Szela.) 7 Emeljétek föl fejeteket!".data) =
      "( Sz .) 7 E f f!".data := by decide

/-- C3 counterexample: neither cleanup function is idempotent.  A second
application of `remove_verse_numbers` to `1 2 abc` strips a further number
(`2 abc` becomes `abc`), and a second application of `remove_references` to
`Ab Cd 1,2 3,4` deletes a citation (`Ab 3,4`) that only assembled after the
first deletion collapsed the text. -/
theorem C3_counterexample :
    remove_verse_numbers (remove_verse_numbers ("1 2 abc".data)) ≠
        remove_verse_numbers ("1 2 abc".data) ∧
      remove_references (remove_references ("Ab Cd 1,2 3,4".data)) ≠
        remove_references ("Ab Cd 1,2 3,4".data) := by
  exact ⟨by decide, by decide⟩

/-- C7 counterexample: the abbreviator's output CAN contain a space
immediately before `.`: the line `Ok.)` tokenizes to `Ok` and `.)`, and the
two-character punctuation token `.)` is not a substring of `.!?,`, so it is
preceded by a space, giving `O .)`. -/
theorem C7_counterexample :
    hasSpaceBeforeTermPunct ( _first_letters_for_line ("Ok.)".data)) = true := by decide

/-- C9 counterexample: the input `ab ; . cd` has no digits, no parentheses
and no reference citation, yet the pipeline output `a ;.` + newline + `c`
has 3 tokens while the input has 4 tokens (`ab`, `;`, `.`, `cd`): the
attached `.` merges with the preceding `;` into the single punctuation
token `;.`. -/
theorem C9_counterexample :
    (("ab ; . cd".data).all (fun c => !isDigitC c) = true) ∧
      ("ab ; . cd".data).contains '(' = false ∧
      ("ab ; . cd".data).contains ')' = false ∧
      refSub ("ab ; . cd".data) = "ab ; . cd".data ∧
      (tokenize (summarize ("ab ; . cd".data))).length ≠
        (tokenize ("ab ; . cd".data)).length := by
  refine ⟨by decide, by decide, by decide, by decide, by decide⟩

/-- A word whose lowercase form starts with a two-character digraph has at
least two characters. -/
theorem startsDigraph_two_le_length {w : Str} (h : startsDigraph w = true) :
    2 ≤ w.length := by
  unfold startsDigraph at h
  rw [List.any_eq_true] at h
  obtain ⟨d, hd, hp⟩ := h
  have hpre : d <+: w.map Char.toLower := List.isPrefixOf_iff_prefix.mp hp
  have hlen : d.length ≤ (w.map Char.toLower).length := hpre.length_le
  rw [List.length_map] at hlen
  have hd2 : d.length = 2 := by fin_cases hd <;> rfl
  omega

/-- Closed form of `first_letter_or_digraph` on non-empty words. -/
theorem flod_eq (w : Str) (hw : w ≠ []) :
    first_letter_or_digraph w =
      (if startsDigraph w = true then w.take 2 else w.take 1) := by
  unfold first_letter_or_digraph startsDigraph
  simp only [if_neg hw]

/-- `first_letter_or_digraph` returns a prefix of its argument. -/
theorem flod_pre (w : Str) : first_letter_or_digraph w <+: w := by
  by_cases hw : w = []
  · subst hw; simp [first_letter_or_digraph]
  · rw [flod_eq w hw]
    by_cases hsd : startsDigraph w = true
    · rw [if_pos hsd]; exact List.take_prefix 2 w
    · rw [if_neg hsd]; exact List.take_prefix 1 w

/-- `first_letter_or_digraph` of a non-empty word is non-empty. -/
theorem flod_ne_nil {w : Str} (hw : w ≠ []) : first_letter_or_digraph w ≠ [] := by
  rw [flod_eq w hw]
  cases w with
  | nil => exact absurd rfl hw
  | cons a t =>
    by_cases hsd : startsDigraph (a :: t) = true
    · rw [if_pos hsd]; simp
    · rw [if_neg hsd]; simp

/-- Characters of `first_letter_or_digraph w` are characters of `w`. -/
theorem flod_mem {w : Str} {c : Char} (h : c ∈ first_letter_or_digraph w) : c ∈ w :=
  List.IsPrefix.mem h (flod_pre w)

/-- C8: for a non-empty word, `first_letter_or_digraph` returns the first
two characters (original case) when the lowercased word starts with one of
the seven Hungarian digraphs, and the first character otherwise. -/
theorem C8_first_unit (w : Str) (hw : w ≠ []) :
    first_letter_or_digraph w =
      (if startsDigraph w = true then w.take 2 else w.take 1) :=
  flod_eq w hw

/-- C8 witness at the concrete word `Szép`. -/
theorem C8_first_unit_witness :
    "Szép".data ≠ [] ∧
      first_letter_or_digraph ("Szép".data) =
        (if startsDigraph ("Szép".data) = true then ("Szép".data).take 2
          else ("Szép".data).take 1) :=
  ⟨by decide, C8_first_unit ("Szép".data) (by decide)⟩

/-- C10: `first_letter_or_digraph` always returns a prefix of its input,
which is empty exactly when the input is empty, has length 2 exactly when
the lowercased input starts with a Hungarian digraph, and has length 1
otherwise. -/
theorem C10_prefix_structure (w : Str) :
    first_letter_or_digraph w <+: w ∧
      (first_letter_or_digraph w = [] ↔ w = []) ∧
      (first_letter_or_digraph w).length =
        (if startsDigraph w = true then 2 else if w = [] then 0 else 1) := by
  by_cases hw : w = []
  · subst hw
    refine ⟨List.nil_prefix, by simp [first_letter_or_digraph], by decide⟩
  · rw [flod_eq w hw]
    by_cases hsd : startsDigraph w = true
    · have h2 : 2 ≤ w.length := startsDigraph_two_le_length hsd
      rw [if_pos hsd]
      refine ⟨List.take_prefix 2 w, ?_, ?_⟩
      · rw [List.take_eq_nil_iff]
        constructor
        · rintro (h | h)
          · exact absurd h (by omega)
          · exact h
        · intro h; exact Or.inr h
      · rw [if_pos hsd, List.length_take]
        omega
    · have h1 : 1 ≤ w.length := by
        cases w with
        | nil => exact absurd rfl hw
        | cons a t => simp
      rw [if_neg hsd]
      refine ⟨List.take_prefix 1 w, ?_, ?_⟩
      · rw [List.take_eq_nil_iff]
        constructor
        · rintro (h | h)
          · exact absurd h (by omega)
          · exact h
        · intro h; exact Or.inr h
      · rw [if_neg hsd, if_neg hw, List.length_take]
        omega

/-- The head surviving a `dropWhile` does not satisfy the predicate. -/
theorem dropWhile_head_false {α : Type} {p : α → Bool} :
    ∀ {l : List α} {c : α} {rest : List α}, l.dropWhile p = c :: rest → p c = false := by
  intro l
  induction l with
  | nil => intro c rest h; simp [List.dropWhile] at h
  | cons a t ih =>
    intro c rest h
    rw [List.dropWhile_cons] at h
    by_cases hp : p a
    · rw [if_pos hp] at h; exact ih h
    · rw [if_neg hp] at h
      cases h
      simpa using hp

/-- Membership transfer out of a `dropWhile`. -/
theorem mem_of_dropWhile {α : Type} {p : α → Bool} {l : List α} {a : α}
    (h : a ∈ l.dropWhile p) : a ∈ l :=
  List.IsSuffix.mem h (List.dropWhile_suffix p)

/-- Membership transfer out of a `pyStrip`. -/
theorem mem_of_pyStrip {l : Str} {c : Char} (h : c ∈ pyStrip l) : c ∈ l :=
  mem_of_dropWhile (List.IsPrefix.mem h (List.rdropWhile_prefix _ _))

/-- Python `strip` is idempotent. -/
theorem pyStrip_idem (l : Str) : pyStrip (pyStrip l) = pyStrip l := by
  unfold pyStrip
  have h1 : ((l.dropWhile isWsC).rdropWhile isWsC).dropWhile isWsC
      = (l.dropWhile isWsC).rdropWhile isWsC := by
    rcases hE : (l.dropWhile isWsC).rdropWhile isWsC with _ | ⟨c, rest⟩
    · simp
    · have hpre : (l.dropWhile isWsC).rdropWhile isWsC <+: l.dropWhile isWsC :=
        List.rdropWhile_prefix _ _
      rw [hE] at hpre
      obtain ⟨t, ht⟩ := hpre
      have hdw : l.dropWhile isWsC = c :: (rest ++ t) := by
        rw [← ht]; simp
      have hc : isWsC c = false := dropWhile_head_false hdw
      rw [List.dropWhile_cons, if_neg (by simp [hc])]
  rw [h1, List.rdropWhile_idempotent]

/-- A digit-free list has no leading digit run. -/
theorem takeWhile_digit_nil {l : Str} (h : ∀ c ∈ l, isDigitC c = false) :
    l.takeWhile isDigitC = [] := by
  cases l with
  | nil => rfl
  | cons a t =>
    rw [List.takeWhile_cons, if_neg (by simp [h a (List.mem_cons_self a t)])]

/-- On digit-free input the verse-number regex does not match, so
`VERSE_NUMBER_RE.sub` is the identity. -/
theorem verseSub_eq_self {l : Str} (h : ∀ c ∈ l, isDigitC c = false) :
    verseSub l = l := by
  have hsub : ∀ c ∈ l.dropWhile isWsC, isDigitC c = false :=
    fun c hc => h c (mem_of_dropWhile hc)
  simp only [verseSub]
  rw [takeWhile_digit_nil hsub]
  simp

/-- On digit-free input the reference regex does not match at any position. -/
theorem refMatch_none {l : Str} (h : ∀ c ∈ l, isDigitC c = false) :
    refMatch l = none := by
  simp only [refMatch]
  by_cases h1 : (l.dropWhile isWsC).takeWhile refLetter = []
  · rw [if_pos h1]
  · rw [if_neg h1]
    by_cases h2 : ((l.dropWhile isWsC).dropWhile refLetter).takeWhile isWsC = []
    · rw [if_pos h2]
    · rw [if_neg h2]
      have h3 : ∀ c ∈ (((l.dropWhile isWsC).dropWhile refLetter).dropWhile isWsC),
          isDigitC c = false :=
        fun c hc => h c (mem_of_dropWhile (mem_of_dropWhile (mem_of_dropWhile hc)))
      rw [if_pos (takeWhile_digit_nil h3)]

/-- On digit-free input `REFERENCE_RE.sub(" ", ...)` is the identity, for
any fuel. -/
theorem refSubF_eq_self : ∀ (f : Nat) (l : Str),
    (∀ c ∈ l, isDigitC c = false) → refSubF f l = l := by
  intro f
  induction f with
  | zero => intro l _; rfl
  | succ g ih =>
    intro l h
    cases l with
    | nil => rfl
    | cons c cs =>
      have hcs : ∀ x ∈ cs, isDigitC x = false :=
        fun x hx => h x (List.mem_cons_of_mem _ hx)
      simp [refSubF, refMatch_none h, ih cs hcs]

/-- On digit-free input `remove_references`'s regex pass is the identity. -/
theorem refSub_eq_self {l : Str} (h : ∀ c ∈ l, isDigitC c = false) :
    refSub l = l :=
  refSubF_eq_self _ _ h

/-- A whitespace-normalised string: every whitespace character is a plain
space and no two whitespace characters are adjacent. -/
def NormWs (z : Str) : Prop :=
  (∀ c ∈ z, isWsC c = true → c = ' ') ∧
    z.Chain' (fun a b => isWsC a = true → isWsC b = false)

/-- `NormWs` passes to tails. -/
theorem NormWs.tail {c : Char} {cs : Str} (h : NormWs (c :: cs)) : NormWs cs :=
  ⟨fun x hx => h.1 x (List.mem_cons_of_mem _ hx), h.2.tail⟩

/-- After the replacement space has been emitted, the collapse worker next
emits a non-whitespace character (if anything). -/
theorem collapseAux_true_head :
    ∀ (cs : Str) (d : Char) (ds : Str), collapseAux true cs = d :: ds → isWsC d = false := by
  intro cs
  induction cs with
  | nil => intro d ds h; simp [collapseAux] at h
  | cons a t ih =>
    intro d ds h
    by_cases ha : isWsC a
    · rw [show collapseAux true (a :: t) = collapseAux true t by
        simp [collapseAux, ha]] at h
      exact ih d ds h
    · rw [show collapseAux true (a :: t) = a :: collapseAux false t by
        simp [collapseAux, ha]] at h
      cases h
      simpa using ha

/-- The collapse worker only outputs characters of its input or spaces. -/
theorem mem_collapseAux :
    ∀ (l : Str) (b : Bool) (c : Char), c ∈ collapseAux b l → c = ' ' ∨ c ∈ l := by
  intro l
  induction l with
  | nil => intro b c h; simp [collapseAux] at h
  | cons a t ih =>
    intro b c h
    by_cases ha : isWsC a
    · cases b with
      | true =>
        rw [show collapseAux true (a :: t) = collapseAux true t by
          simp [collapseAux, ha]] at h
        rcases ih true c h with h' | h'
        · exact Or.inl h'
        · exact Or.inr (List.mem_cons_of_mem _ h')
      | false =>
        rw [show collapseAux false (a :: t) = ' ' :: collapseAux true t by
          simp [collapseAux, ha]] at h
        rcases List.mem_cons.mp h with h' | h'
        · exact Or.inl h'
        · rcases ih true c h' with h'' | h''
          · exact Or.inl h''
          · exact Or.inr (List.mem_cons_of_mem _ h'')
    · rw [show collapseAux b (a :: t) = a :: collapseAux false t by
        simp [collapseAux, ha]] at h
      rcases List.mem_cons.mp h with h' | h'
      · exact Or.inr (h' ▸ List.mem_cons_self a t)
      · rcases ih false c h' with h'' | h''
        · exact Or.inl h''
        · exact Or.inr (List.mem_cons_of_mem _ h'')

/-- The collapse worker produces a whitespace-normalised string. -/
theorem collapseAux_norm : ∀ (l : Str) (b : Bool), NormWs (collapseAux b l) := by
  intro l
  induction l with
  | nil => intro b; exact ⟨by simp [collapseAux], by simp [collapseAux]⟩
  | cons a t ih =>
    intro b
    by_cases ha : isWsC a
    · cases b with
      | true =>
        rw [show collapseAux true (a :: t) = collapseAux true t by
          simp [collapseAux, ha]]
        exact ih true
      | false =>
        rw [show collapseAux false (a :: t) = ' ' :: collapseAux true t by
          simp [collapseAux, ha]]
        refine ⟨?_, ?_⟩
        · intro c hc _
          rcases List.mem_cons.mp hc with h' | h'
          · exact h'
          · exact (ih true).1 c h' (by assumption)
        · rw [List.chain'_cons']
          refine ⟨?_, (ih true).2⟩
          intro y hy _
          rcases hE : collapseAux true t with _ | ⟨d, ds⟩
          · rw [hE] at hy; simp at hy
          · rw [hE] at hy
            simp at hy
            exact hy ▸ collapseAux_true_head t d ds hE
    · rw [show collapseAux b (a :: t) = a :: collapseAux false t by
        simp [collapseAux, ha]]
      refine ⟨?_, ?_⟩
      · intro c hc hws
        rcases List.mem_cons.mp hc with h' | h'
        · exact absurd (h' ▸ hws) (by simp [ha])
        · exact (ih false).1 c h' hws
      · rw [List.chain'_cons']
        exact ⟨fun y _ hws => absurd hws (by simp [ha]), (ih false).2⟩

/-- A whitespace-normalised string is a fixed point of the collapse pass. -/
theorem collapseAux_eq_self :
    ∀ (n : Nat) (z : Str), z.length ≤ n → NormWs z → collapseAux false z = z := by
  intro n
  induction n with
  | zero =>
    intro z hz _
    have : z = [] := List.eq_nil_of_length_eq_zero (Nat.le_zero.mp hz)
    subst this; rfl
  | succ m ih =>
    intro z hz hn
    cases z with
    | nil => rfl
    | cons c cs =>
      by_cases hc : isWsC c
      · have hsp : c = ' ' := hn.1 c (List.mem_cons_self c cs) hc
        rw [show collapseAux false (c :: cs) = ' ' :: collapseAux true cs by
          simp [collapseAux, hc]]
        cases cs with
        | nil => simp [collapseAux, hsp]
        | cons d ds =>
          have hd : isWsC d = false := by
            have := List.chain'_cons'.mp hn.2
            exact this.1 d (by simp) hc
          rw [show collapseAux true (d :: ds) = d :: collapseAux false ds by
            simp [collapseAux, hd]]
          have hds : NormWs ds := (NormWs.tail hn).tail
          have hlen : ds.length ≤ m := by
            simp at hz; omega
          rw [ih ds hlen hds, hsp]
      · rw [show collapseAux false (c :: cs) = c :: collapseAux false cs by
          simp [collapseAux, hc]]
        have hlen : cs.length ≤ m := by simp at hz; omega
        rw [ih cs hlen (NormWs.tail hn)]

/-- `NormWs` is preserved by stripping. -/
theorem NormWs.pyStrip {z : Str} (h : NormWs z) : NormWs (pyStrip z) := by
  refine ⟨fun c hc hw => h.1 c (mem_of_pyStrip hc) hw, ?_⟩
  have h1 : List.Chain' (fun a b => isWsC a = true → isWsC b = false) (z.dropWhile isWsC) :=
    h.2.suffix (List.dropWhile_suffix _)
  exact h1.prefix (List.rdropWhile_prefix _ _)

/-- C3 (amended): on digit-free input both cleanup functions are
idempotent; in general they are not (see the counterexample). -/
theorem C3_idempotent_on_digit_free (x : Str) (h : ∀ c ∈ x, isDigitC c = false) :
    remove_verse_numbers (remove_verse_numbers x) = remove_verse_numbers x ∧
      remove_references (remove_references x) = remove_references x := by
  constructor
  · unfold remove_verse_numbers
    rw [verseSub_eq_self h]
    have h2 : ∀ c ∈ pyStrip x, isDigitC c = false :=
      fun c hc => h c (mem_of_pyStrip hc)
    rw [verseSub_eq_self h2, pyStrip_idem]
  · unfold remove_references
    rw [refSub_eq_self h]
    have hyd : ∀ c ∈ pyStrip (collapseWs x), isDigitC c = false := by
      intro c hc
      rcases mem_collapseAux _ _ _ (mem_of_pyStrip hc) with h' | h'
      · subst h'; rfl
      · exact h c h'
    rw [refSub_eq_self hyd]
    have hn : NormWs (pyStrip (collapseWs x)) :=
      NormWs.pyStrip (collapseAux_norm x false)
    rw [show collapseWs (pyStrip (collapseWs x)) = pyStrip (collapseWs x) from
      collapseAux_eq_self _ _ (Nat.le_refl _) hn]
    exact pyStrip_idem _

/-- C3 witness at the digit-free input `a b`. -/
theorem C3_idempotent_on_digit_free_witness :
    (∀ c ∈ ("a b".data), isDigitC c = false) ∧
      (remove_verse_numbers (remove_verse_numbers ("a b".data)) =
          remove_verse_numbers ("a b".data) ∧
        remove_references (remove_references ("a b".data)) =
          remove_references ("a b".data)) :=
  ⟨by decide, C3_idempotent_on_digit_free ("a b".data) (by decide)⟩

/-- Whitespace characters are not word characters. -/
theorem ws_not_wordChar {c : Char} (h : isWsC c = true) : isWordChar c = false := by
  simp only [isWsC, Bool.or_eq_true, decide_eq_true_eq] at h
  rcases h with ((((rfl | rfl) | rfl) | rfl) | rfl) | rfl <;> rfl

/-- Word characters are not whitespace. -/
theorem wordChar_not_ws {c : Char} (h : isWordChar c = true) : isWsC c = false := by
  by_cases hw : isWsC c = true
  · rw [ws_not_wordChar hw] at h; cases h
  · simpa using hw

/-- The hyphen is not a word character. -/
theorem hyphen_not_wordChar : isWordChar '-' = false := by decide

/-- The hyphen is not whitespace. -/
theorem hyphen_not_ws : isWsC '-' = false := by decide

/-- Punctuation-token characters are not whitespace. -/
theorem punct_not_ws {c : Char} (h : isPunctC c = true) : isWsC c = false := by
  unfold isPunctC at h
  rcases Bool.and_eq_true_iff.mp h with ⟨_, h2⟩
  simpa using h2

/-- Punctuation-token characters are not word characters. -/
theorem punct_not_wordChar {c : Char} (h : isPunctC c = true) : isWordChar c = false := by
  unfold isPunctC at h
  rcases Bool.and_eq_true_iff.mp h with ⟨h1, _⟩
  simpa using h1

/-- Non-word non-whitespace characters are punctuation characters. -/
theorem punct_of_not_word_not_ws {c : Char} (h1 : isWordChar c = false)
    (h2 : isWsC c = false) : isPunctC c = true := by
  unfold isPunctC
  rw [h1, h2]
  rfl

/-- Elements of the pieces of a `splitOnP` are elements of the original list. -/
theorem mem_of_mem_splitOnP {p : Char → Bool} :
    ∀ {l : List Char} {s : List Char}, s ∈ l.splitOnP p → ∀ {c : Char}, c ∈ s → c ∈ l := by
  intro l
  induction l with
  | nil =>
    intro s hs c hc
    rw [List.splitOnP_nil] at hs
    simp at hs
    subst hs
    simp at hc
  | cons x xs ih =>
    intro s hs c hc
    rw [List.splitOnP_cons] at hs
    by_cases hx : p x = true
    · rw [if_pos hx] at hs
      rcases List.mem_cons.mp hs with h' | h'
      · subst h'; simp at hc
      · exact List.mem_cons_of_mem _ (ih h' hc)
    · rw [if_neg hx] at hs
      rcases hE : xs.splitOnP p with _ | ⟨h0, t0⟩
      · exact absurd hE (List.splitOnP_ne_nil p xs)
      · rw [hE] at hs
        simp only [List.modifyHead] at hs
        rcases List.mem_cons.mp hs with h' | h'
        · subst h'
          rcases List.mem_cons.mp hc with h'' | h''
          · exact h'' ▸ List.mem_cons_self x xs
          · exact List.mem_cons_of_mem _ (ih (hE ▸ List.mem_cons_self h0 t0) h'')
        · exact List.mem_cons_of_mem _ (ih (hE ▸ List.mem_cons_of_mem _ h') hc)

/-- Splitting an intercalation step (single-character separator). -/
theorem intercalate_cons_of_ne_nil {x : Char} {a : Str} {S : List Str} (h : S ≠ []) :
    List.intercalate [x] (a :: S) = a ++ x :: List.intercalate [x] S := by
  cases S with
  | nil => exact absurd rfl h
  | cons b t => simp [List.intercalate, List.intersperse_cons_cons]

/-- The shape of a word token `\w+(?:-\w+)*`: a non-empty list of non-empty
all-word-character segments joined by single hyphens. -/
def WordShape (t : Str) : Prop :=
  ∃ segs : List Str, segs ≠ [] ∧
    (∀ s ∈ segs, s ≠ [] ∧ ∀ c ∈ s, isWordChar c = true) ∧
    t = List.intercalate ['-'] segs

/-- A word-shaped token is non-empty. -/
theorem WordShape.ne_nil {t : Str} (h : WordShape t) : t ≠ [] := by
  obtain ⟨segs, hne, hseg, rfl⟩ := h
  cases segs with
  | nil => exact absurd rfl hne
  | cons a S =>
    cases S with
    | nil =>
      have := (hseg a (List.mem_cons_self a [])).1
      simpa [List.intercalate]
    | cons b T =>
      rw [intercalate_cons_of_ne_nil (by simp)]
      have := (hseg a (List.mem_cons_self a _)).1
      cases a with
      | nil => exact absurd rfl this
      | cons c cs => simp

/-- A word-shaped token's characters are word characters or hyphens. -/
theorem WordShape.mem {t : Str} (h : WordShape t) {c : Char} (hc : c ∈ t) :
    isWordChar c = true ∨ c = '-' := by
  obtain ⟨segs, hne, hseg, rfl⟩ := h
  clear hne
  induction segs with
  | nil => simp [List.intercalate] at hc
  | cons a S ih =>
    cases S with
    | nil =>
      simp [List.intercalate] at hc
      exact Or.inl ((hseg a (List.mem_cons_self a _)).2 c hc)
    | cons b T =>
      rw [intercalate_cons_of_ne_nil (by simp)] at hc
      rcases List.mem_append.mp hc with h' | h'
      · exact Or.inl ((hseg a (List.mem_cons_self a _)).2 c h')
      · rcases List.mem_cons.mp h' with h'' | h''
        · exact Or.inr h''
        · exact ih (fun s hs => hseg s (List.mem_cons_of_mem _ hs)) h''

/-- A word-shaped token starts with a word character. -/
theorem WordShape.head {t : Str} (h : WordShape t) :
    ∀ {c : Char} {rest : Str}, t = c :: rest → isWordChar c = true := by
  obtain ⟨segs, hne, hseg, rfl⟩ := h
  intro c rest hcr
  cases segs with
  | nil => exact absurd rfl hne
  | cons a S =>
    have ha := hseg a (List.mem_cons_self a _)
    cases S with
    | nil =>
      simp [List.intercalate] at hcr
      cases a with
      | nil => exact absurd rfl ha.1
      | cons x xs =>
        rw [hcr] at ha
        exact ha.2 c (List.mem_cons_self c _)
    | cons b T =>
      rw [intercalate_cons_of_ne_nil (by simp)] at hcr
      cases a with
      | nil => exact absurd rfl ha.1
      | cons x xs =>
        simp at hcr
        exact hcr.1 ▸ ha.2 x (List.mem_cons_self x xs)

/-- The tail `r2` in the scanner's hyphen step is a suffix of the input. -/
theorem dropWhile_tail_suffix {p : Char → Bool} {l : Str} {c : Char} {r : Str}
    (hE : l.dropWhile p = c :: r) : r <:+ l := by
  refine List.IsSuffix.trans ?_ (@List.dropWhile_suffix _ l p)
  rw [hE]
  exact ⟨[c], rfl⟩

/-- The remainder returned by the word-token scanner is a suffix of the
input. -/
theorem wordTokF_snd_suffix : ∀ (f : Nat) (l : Str), (wordTokF f l).2 <:+ l := by
  intro f
  induction f with
  | zero => intro l; exact List.suffix_refl l
  | succ g ih =>
    intro l
    rw [wordTokF]
    rcases hE : l.dropWhile isWordChar with _ | ⟨c, r⟩
    · exact List.nil_suffix
    · dsimp only
      by_cases hc : (decide (c = '-') && !(r.takeWhile isWordChar).isEmpty) = true
      · rw [if_pos hc]
        exact (ih r).trans (dropWhile_tail_suffix hE)
      · rw [if_neg hc]
        exact hE ▸ List.dropWhile_suffix isWordChar

/-- Length bookkeeping for the word-scanner: input length is the word-run
length plus the remainder length. -/
theorem takeWhile_dropWhile_length (p : Char → Bool) (l : Str) :
    l.length = (l.takeWhile p).length + (l.dropWhile p).length := by
  conv_lhs => rw [← List.takeWhile_append_dropWhile p l]
  rw [List.length_append]

/-- When the input starts with a word character, the word-token scanner
strictly consumes input. -/
theorem wordTokF_snd_lt (f : Nat) (l : Str) (h : l.takeWhile isWordChar ≠ []) :
    (wordTokF (f + 1) l).2.length < l.length := by
  rw [wordTokF]
  have hlen := takeWhile_dropWhile_length isWordChar l
  have htw : 1 ≤ (l.takeWhile isWordChar).length := by
    cases hE : l.takeWhile isWordChar with
    | nil => exact absurd hE h
    | cons a t => simp
  rcases hE : l.dropWhile isWordChar with _ | ⟨c, r⟩
  · rw [hE] at hlen
    simp only [List.length_nil] at hlen
    simp
    omega
  · rw [hE] at hlen
    simp only [List.length_cons] at hlen
    dsimp only
    by_cases hc : (decide (c = '-') && !(r.takeWhile isWordChar).isEmpty) = true
    · rw [if_pos hc]
      dsimp only
      have hsuf : (wordTokF f r).2.length ≤ r.length :=
        (wordTokF_snd_suffix f r).length_le
      omega
    · rw [if_neg hc]
      simp only [List.length_cons]
      omega

/-- With adequate fuel, a scanned word token is word-shaped. -/
theorem wordTokF_shape : ∀ (f : Nat) (l : Str), l.length ≤ f →
    l.takeWhile isWordChar ≠ [] → WordShape (wordTokF f l).1 := by
  intro f
  induction f with
  | zero =>
    intro l hl h
    have : l = [] := List.eq_nil_of_length_eq_zero (Nat.le_zero.mp hl)
    subst this
    simp at h
  | succ g ih =>
    intro l hl h
    rw [wordTokF]
    have hlen := takeWhile_dropWhile_length isWordChar l
    have htw : 1 ≤ (l.takeWhile isWordChar).length := by
      cases hE : l.takeWhile isWordChar with
      | nil => exact absurd hE h
      | cons a t => simp
    have hwchars : ∀ c ∈ l.takeWhile isWordChar, isWordChar c = true :=
      fun c hc => List.mem_takeWhile_imp hc
    have hsingle : WordShape (l.takeWhile isWordChar) := by
      refine ⟨[l.takeWhile isWordChar], by simp, ?_, by simp [List.intercalate]⟩
      intro s hs
      simp at hs
      subst hs
      exact ⟨h, hwchars⟩
    rcases hE : l.dropWhile isWordChar with _ | ⟨c, r⟩
    · exact hsingle
    · dsimp only
      by_cases hc : (decide (c = '-') && !(r.takeWhile isWordChar).isEmpty) = true
      · rw [if_pos hc]
        rcases Bool.and_eq_true_iff.mp hc with ⟨_, hr'⟩
        have hr : r.takeWhile isWordChar ≠ [] := by
          intro hnil
          rw [hnil] at hr'
          simp at hr'
        have hrlen : r.length ≤ g := by
          rw [hE] at hlen
          simp only [List.length_cons] at hlen
          omega
        obtain ⟨S, hS1, hS2, hS3⟩ := ih r hrlen hr
        refine ⟨l.takeWhile isWordChar :: S, by simp, ?_, ?_⟩
        · intro s hs
          rcases List.mem_cons.mp hs with h' | h'
          · subst h'; exact ⟨h, hwchars⟩
          · exact hS2 s h'
        · rw [intercalate_cons_of_ne_nil hS1, hS3]
      · rw [if_neg hc]
        exact hsingle

/-- Every token produced by the scanner is either word-shaped or a
non-empty run of punctuation characters. -/
theorem tokF_facts : ∀ (f : Nat) (l : Str) (t : Str), t ∈ tokF f l →
    WordShape t ∨ (t ≠ [] ∧ ∀ c ∈ t, isPunctC c = true) := by
  intro f
  induction f with
  | zero => intro l t ht; simp [tokF] at ht
  | succ g ih =>
    intro l t ht
    cases l with
    | nil => simp [tokF] at ht
    | cons c cs =>
      rw [tokF] at ht
      by_cases hws : isWsC c = true
      · rw [if_pos hws] at ht
        exact ih cs t ht
      · rw [if_neg hws] at ht
        by_cases hw : isWordChar c = true
        · rw [if_pos hw] at ht
          rcases List.mem_cons.mp ht with h' | h'
          · subst h'
            refine Or.inl (wordTokF_shape _ _ (by simp) ?_)
            rw [List.takeWhile_cons, if_pos hw]
            simp
          · exact ih _ t h'
        · rw [if_neg hw] at ht
          rcases List.mem_cons.mp ht with h' | h'
          · subst h'
            refine Or.inr ⟨?_, fun x hx => List.mem_takeWhile_imp hx⟩
            rw [List.takeWhile_cons,
              if_pos (punct_of_not_word_not_ws (by simpa using hw) (by simpa using hws))]
            simp
          · exact ih _ t h'

/-- The four characters of the `no_space_before` set. -/
def setCh (c : Char) : Bool := c = '.' || c = ',' || c = '!' || c = '?'

/-- One unfolding step of the space-before-punctuation scanner. -/
theorem hSB_cons_cons (a b : Char) (t : Str) :
    hasSpaceBeforeTermPunct (a :: b :: t) =
      ((a = ' ' && setCh b) || hasSpaceBeforeTermPunct (b :: t)) := rfl

/-- Word characters are not in the `no_space_before` set. -/
theorem wordChar_not_setCh {c : Char} (h : isWordChar c = true) : setCh c = false := by
  by_cases hs : setCh c = true
  · simp only [setCh, Bool.or_eq_true, decide_eq_true_eq] at hs
    rcases hs with ((rfl | rfl) | rfl) | rfl <;> exact absurd h (by decide)
  · simpa using hs

/-- A single set character is a substring of `no_space_before`. -/
theorem setCh_pyIn {c : Char} (h : setCh c = true) :
    pyIn [c] noSpaceBeforeStr = true := by
  simp only [setCh, Bool.or_eq_true, decide_eq_true_eq] at h
  rcases h with ((rfl | rfl) | rfl) | rfl <;> decide

/-- Prepending space-free text does not create a space-before-punctuation
pair beyond those already in the suffix. -/
theorem hSB_append_of_no_space : ∀ (p rest : Str), (∀ c ∈ p, c ≠ ' ') →
    hasSpaceBeforeTermPunct (p ++ rest) = hasSpaceBeforeTermPunct rest := by
  intro p
  induction p with
  | nil => intro rest _; rfl
  | cons a p' ih =>
    intro rest hp
    have ha : a ≠ ' ' := hp a (List.mem_cons_self a p')
    cases p' with
    | nil =>
      cases rest with
      | nil => rfl
      | cons b t =>
        show hasSpaceBeforeTermPunct (a :: b :: t) = hasSpaceBeforeTermPunct (b :: t)
        rw [hSB_cons_cons]
        simp [ha]
    | cons b p'' =>
      show hasSpaceBeforeTermPunct (a :: b :: (p'' ++ rest)) = hasSpaceBeforeTermPunct rest
      rw [hSB_cons_cons]
      have h2 : hasSpaceBeforeTermPunct (b :: (p'' ++ rest)) = hasSpaceBeforeTermPunct rest := by
        have h3 := ih rest (fun c hc => hp c (List.mem_cons_of_mem _ hc))
        simpa using h3
      rw [h2]
      simp [ha]

/-- The reassembly tail never produces a space before a set character,
provided every part is non-empty, space-free, and starts with a set
character only if it attaches. -/
theorem tailJoin_safe : ∀ (ps : List Str),
    (∀ p ∈ ps, p ≠ [] ∧ (∀ c ∈ p, c ≠ ' ') ∧
      (pyIn p noSpaceBeforeStr = false → ∀ c rest, p = c :: rest → setCh c = false)) →
    hasSpaceBeforeTermPunct (ps.flatMap sepPart) = false := by
  intro ps
  induction ps with
  | nil => intro _; rfl
  | cons q rest ih =>
    intro h
    obtain ⟨hq1, hq2, hq3⟩ := h q (List.mem_cons_self q rest)
    have hrest := fun p hp => h p (List.mem_cons_of_mem _ hp)
    rw [List.flatMap_cons]
    by_cases hin : pyIn q noSpaceBeforeStr = true
    · rw [show sepPart q = q from by simp [sepPart, hin]]
      rw [hSB_append_of_no_space q _ hq2]
      exact ih hrest
    · have hin' : pyIn q noSpaceBeforeStr = false := by simpa using hin
      rw [show sepPart q = ' ' :: q from by simp [sepPart, hin']]
      cases q with
      | nil => exact absurd rfl hq1
      | cons c q' =>
        have hc : setCh c = false := hq3 hin' c q' rfl
        show hasSpaceBeforeTermPunct (' ' :: c :: (q' ++ rest.flatMap sepPart)) = false
        rw [hSB_cons_cons]
        have h2 : hasSpaceBeforeTermPunct ((c :: q') ++ rest.flatMap sepPart)
            = hasSpaceBeforeTermPunct (rest.flatMap sepPart) :=
          hSB_append_of_no_space _ _ hq2
        simp only [List.cons_append] at h2
        rw [h2, ih hrest]
        simp [hc]

/-- Full reassembly safety. -/
theorem joinParts_safe (ps : List Str)
    (h : ∀ p ∈ ps, p ≠ [] ∧ (∀ c ∈ p, c ≠ ' ') ∧
      (pyIn p noSpaceBeforeStr = false → ∀ c rest, p = c :: rest → setCh c = false)) :
    hasSpaceBeforeTermPunct (joinParts ps) = false := by
  cases ps with
  | nil => rfl
  | cons p rest =>
    obtain ⟨hp1, hp2, _⟩ := h p (List.mem_cons_self p rest)
    show hasSpaceBeforeTermPunct (p ++ rest.flatMap sepPart) = false
    rw [hSB_append_of_no_space p _ hp2]
    exact tailJoin_safe rest (fun q hq => h q (List.mem_cons_of_mem _ hq))

/-- A word-shaped token is recognized by the word-token test. -/
theorem isWordTok_of_wordShape {t : Str} (h : WordShape t) : isWordTok t = true := by
  cases hE : t with
  | nil => exact absurd hE h.ne_nil
  | cons c r =>
    show isWordChar c = true
    exact h.head hE

/-- `abbrevToken` on a word-shaped token abbreviates each segment. -/
theorem abbrevToken_of_wordShape {t : Str} {segs : List Str} (hne : segs ≠ [])
    (hseg : ∀ s ∈ segs, s ≠ [] ∧ ∀ c ∈ s, isWordChar c = true)
    (ht : t = List.intercalate ['-'] segs) :
    abbrevToken t = List.intercalate ['-'] (segs.map first_letter_or_digraph) := by
  have hws : WordShape t := ⟨segs, hne, hseg, ht⟩
  have hx : ∀ s ∈ segs, '-' ∉ s := by
    intro s hs hmem
    have := (hseg s hs).2 '-' hmem
    rw [hyphen_not_wordChar] at this
    cases this
  unfold abbrevToken
  rw [if_pos (by simpa using isWordTok_of_wordShape hws)]
  rw [ht, List.splitOn_intercalate segs '-' hx hne]
  rw [List.filter_eq_self.mpr (fun s hs => by
    cases hsE : s with
    | nil => exact absurd hsE (hseg s hs).1
    | cons a r => simp)]

/-- `abbrevToken` preserves the word shape. -/
theorem abbrevToken_wordShape {t : Str} (h : WordShape t) :
    WordShape (abbrevToken t) := by
  obtain ⟨segs, hne, hseg, ht⟩ := h
  rw [abbrevToken_of_wordShape hne hseg ht]
  refine ⟨segs.map first_letter_or_digraph, by simpa using hne, ?_, rfl⟩
  intro s hs
  rw [List.mem_map] at hs
  obtain ⟨s0, hs0, rfl⟩ := hs
  exact ⟨flod_ne_nil (hseg s0 hs0).1,
    fun c hc => (hseg s0 hs0).2 c (flod_mem hc)⟩

/-- `abbrevToken` keeps punctuation tokens verbatim. -/
theorem abbrevToken_punct {q : Str} (hne : q ≠ []) (hp : ∀ c ∈ q, isPunctC c = true) :
    abbrevToken q = q := by
  cases q with
  | nil => exact absurd rfl hne
  | cons c r =>
    have hw : isWordChar c = false :=
      punct_not_wordChar (hp c (List.mem_cons_self c r))
    unfold abbrevToken
    rw [if_neg (by simp [isWordTok, hw])]

/-- C7 (amended): for a line whose punctuation tokens are all single
characters, the abbreviator's output has no space immediately before
`.`, `,`, `!` or `?` (the attachment test being Python's substring test on
`.!?,`). -/
theorem C7_no_space_before_single_punct (line : Str)
    (h : ∀ t ∈ tokenize line, isWordTok t = false → t.length = 1) :
    hasSpaceBeforeTermPunct ( _first_letters_for_line line) = false := by
  unfold _first_letters_for_line
  apply joinParts_safe
  intro p hp
  rw [List.mem_map] at hp
  obtain ⟨t, ht, rfl⟩ := hp
  rcases tokF_facts _ _ t ht with hw | ⟨hne, hpunct⟩
  · have hps : WordShape (abbrevToken t) := abbrevToken_wordShape hw
    refine ⟨hps.ne_nil, ?_, ?_⟩
    · intro c hc hsp
      rcases hps.mem hc with h' | h'
      · subst hsp; exact absurd h' (by decide)
      · subst hsp; cases h'
    · intro _ c rest hcr
      exact wordChar_not_setCh (hps.head hcr)
  · rw [abbrevToken_punct hne hpunct]
    have hlen1 : t.length = 1 := by
      apply h t ht
      cases hE : t with
      | nil => exact absurd hE hne
      | cons c r =>
        show isWordChar c = false
        exact punct_not_wordChar (hpunct c (hE ▸ List.mem_cons_self c r))
    refine ⟨hne, ?_, ?_⟩
    · intro c hc hsp
      have := punct_not_ws (hpunct c hc)
      subst hsp
      exact absurd this (by decide)
    · intro hnin c rest hcr
      have ht1 : t = [c] := by
        subst hcr
        cases rest with
        | nil => rfl
        | cons x xs => simp at hlen1
      by_cases hsc : setCh c = true
      · rw [ht1] at hnin
        rw [setCh_pyIn hsc] at hnin
        cases hnin
      · simpa using hsc

/-- C7 witness at a line whose punctuation tokens are single characters. -/
theorem C7_no_space_before_single_punct_witness :
    (∀ t ∈ tokenize ("ab, cd.".data), isWordTok t = false → t.length = 1) ∧
      hasSpaceBeforeTermPunct ( _first_letters_for_line ("ab, cd.".data)) = false :=
  ⟨by decide, C7_no_space_before_single_punct ("ab, cd.".data) (by decide)⟩

/-- `wordTokF` on the empty list, at any fuel. -/
theorem wordTokF_nil : ∀ (g : Nat), wordTokF g [] = ([], []) := by
  intro g
  cases g with
  | zero => rfl
  | succ g' => rfl

/-- Fuel irrelevance for the word-token scanner (any adequate fuel). -/
theorem wordTokF_congr : ∀ (f g : Nat) (l : Str), l.length ≤ f → l.length ≤ g →
    wordTokF f l = wordTokF g l := by
  intro f
  induction f with
  | zero =>
    intro g l hf _
    have : l = [] := List.eq_nil_of_length_eq_zero (Nat.le_zero.mp hf)
    subst this
    rw [wordTokF_nil, wordTokF_nil]
  | succ f' ih =>
    intro g l hf hg
    cases g with
    | zero =>
      have : l = [] := List.eq_nil_of_length_eq_zero (Nat.le_zero.mp hg)
      subst this
      rw [wordTokF_nil, wordTokF_nil]
    | succ g' =>
      cases l with
      | nil => rw [wordTokF_nil, wordTokF_nil]
      | cons x xs =>
        simp only [List.length_cons] at hf hg
        have hlen := takeWhile_dropWhile_length isWordChar (x :: xs)
        simp only [List.length_cons] at hlen
        rw [wordTokF, wordTokF]
        rcases hE : (x :: xs).dropWhile isWordChar with _ | ⟨c, r⟩
        · rfl
        · rw [hE] at hlen
          simp only [List.length_cons] at hlen
          dsimp only
          by_cases hc : (decide (c = '-') && !(r.takeWhile isWordChar).isEmpty) = true
          · rw [if_pos hc, if_pos hc]
            have h1 : r.length ≤ f' := by omega
            have h2 : r.length ≤ g' := by omega
            rw [ih g' r h1 h2]
          · rw [if_neg hc, if_neg hc]

/-- `tokF` on the empty list, at any fuel. -/
theorem tokF_nil : ∀ (f : Nat), tokF f [] = [] := by
  intro f
  cases f with
  | zero => rfl
  | succ f' => rfl

/-- Fuel irrelevance for the tokenizer (any fuel above the length). -/
theorem tokF_congr : ∀ (f g : Nat) (l : Str), l.length < f → l.length < g →
    tokF f l = tokF g l := by
  intro f
  induction f with
  | zero => intro g l hf _; exact absurd hf (Nat.not_lt_zero _)
  | succ f' ih =>
    intro g l hf hg
    cases g with
    | zero => exact absurd hg (Nat.not_lt_zero _)
    | succ g' =>
      cases l with
      | nil => rw [tokF_nil, tokF_nil]
      | cons c cs =>
        rw [tokF, tokF]
        have hflen : cs.length < f' := by
          simp only [List.length_cons] at hf
          omega
        have hglen : cs.length < g' := by
          simp only [List.length_cons] at hg
          omega
        by_cases h1 : isWsC c = true
        · rw [if_pos h1, if_pos h1, ih g' cs hflen hglen]
        · rw [if_neg h1, if_neg h1]
          by_cases h2 : isWordChar c = true
          · rw [if_pos h2, if_pos h2]
            have hrest : (wordTok (c :: cs)).2.length < cs.length + 1 := by
              show (wordTokF (c :: cs).length (c :: cs)).2.length < cs.length + 1
              rw [List.length_cons]
              exact wordTokF_snd_lt cs.length (c :: cs)
                (by rw [List.takeWhile_cons, if_pos h2]; simp)
            rw [ih g' _ (by omega) (by omega)]
          · rw [if_neg h2, if_neg h2]
            have hdrop : ((c :: cs).dropWhile isPunctC).length ≤ cs.length := by
              rw [List.dropWhile_cons,
                if_pos (punct_of_not_word_not_ws (by simpa using h2) (by simpa using h1))]
              exact (List.dropWhile_suffix _).length_le
            rw [ih g' _ (by omega) (by omega)]

/-- Tokenizing skips a leading whitespace character. -/
theorem tokenize_cons_ws {c : Char} {cs : Str} (h : isWsC c = true) :
    tokenize (c :: cs) = tokenize cs := by
  show tokF ((c :: cs).length + 1) (c :: cs) = tokF (cs.length + 1) cs
  rw [List.length_cons, tokF, if_pos h]

/-- The remainder after a word token is strictly shorter. -/
theorem wordTok_snd_lt {c : Char} {cs : Str} (h : isWordChar c = true) :
    (wordTok (c :: cs)).2.length < (c :: cs).length := by
  show (wordTokF (c :: cs).length (c :: cs)).2.length < (c :: cs).length
  rw [List.length_cons]
  exact wordTokF_snd_lt cs.length (c :: cs) (by rw [List.takeWhile_cons, if_pos h]; simp)

/-- Tokenizing at a word character produces a word token. -/
theorem tokenize_cons_word {c : Char} {cs : Str} (hw : isWordChar c = true) :
    tokenize (c :: cs) = (wordTok (c :: cs)).1 :: tokenize ((wordTok (c :: cs)).2) := by
  have hws : isWsC c = false := wordChar_not_ws hw
  show tokF ((c :: cs).length + 1) (c :: cs) = _
  rw [List.length_cons, tokF, if_neg (by simp [hws]), if_pos hw]
  congr 1
  apply tokF_congr
  · have := @wordTok_snd_lt _ cs hw
    simp only [List.length_cons] at this
    omega
  · omega

/-- Tokenizing at a punctuation character produces a punctuation run. -/
theorem tokenize_cons_punct {c : Char} {cs : Str} (hp : isPunctC c = true) :
    tokenize (c :: cs) =
      (c :: cs).takeWhile isPunctC :: tokenize ((c :: cs).dropWhile isPunctC) := by
  have hws : isWsC c = false := punct_not_ws hp
  have hw : isWordChar c = false := punct_not_wordChar hp
  show tokF ((c :: cs).length + 1) (c :: cs) = _
  rw [List.length_cons, tokF, if_neg (by simp [hws]), if_neg (by simp [hw])]
  congr 1
  apply tokF_congr
  · have : ((c :: cs).dropWhile isPunctC).length ≤ cs.length := by
      rw [List.dropWhile_cons, if_pos hp]
      exact (List.dropWhile_suffix _).length_le
    omega
  · omega

/-- `takeWhile` stops at an appended failing character. -/
theorem takeWhile_append_not {p : Char → Bool} {w : Char} (hw : p w = false) :
    ∀ (l b : Str), (l ++ w :: b).takeWhile p = l.takeWhile p := by
  intro l
  induction l with
  | nil =>
    intro b
    rw [List.nil_append, List.takeWhile_cons, if_neg (by simp [hw])]
    rfl
  | cons a t ih =>
    intro b
    rw [List.cons_append, List.takeWhile_cons, List.takeWhile_cons]
    by_cases ha : p a = true
    · rw [if_pos ha, if_pos ha, ih b]
    · rw [if_neg ha, if_neg ha]

/-- `dropWhile` passes an appended failing character through. -/
theorem dropWhile_append_not {p : Char → Bool} {w : Char} (hw : p w = false) :
    ∀ (l b : Str), (l ++ w :: b).dropWhile p = l.dropWhile p ++ w :: b := by
  intro l
  induction l with
  | nil =>
    intro b
    rw [List.nil_append, List.dropWhile_cons, if_neg (by simp [hw])]
    rfl
  | cons a t ih =>
    intro b
    rw [List.cons_append, List.dropWhile_cons, List.dropWhile_cons]
    by_cases ha : p a = true
    · rw [if_pos ha, if_pos ha, ih b]
    · rw [if_neg ha, if_neg ha, List.cons_append]

/-- The word-token scanner does not look past a non-word, non-hyphen
character. -/
theorem wordTokF_append {w : Char} (hw1 : isWordChar w = false) (hw2 : w ≠ '-') :
    ∀ (f : Nat) (l b : Str),
      wordTokF f (l ++ w :: b) = ((wordTokF f l).1, (wordTokF f l).2 ++ w :: b) := by
  intro f
  induction f with
  | zero => intro l b; rfl
  | succ f' ih =>
    intro l b
    rw [wordTokF, wordTokF, dropWhile_append_not hw1 l b, takeWhile_append_not hw1 l b]
    rcases hE : l.dropWhile isWordChar with _ | ⟨c, r⟩
    · rw [List.nil_append]
      dsimp only
      rw [if_neg (by simp [hw2])]
    · rw [List.cons_append]
      dsimp only
      rw [takeWhile_append_not hw1 r b]
      by_cases hc : (decide (c = '-') && !(r.takeWhile isWordChar).isEmpty) = true
      · rw [if_pos hc, if_pos hc, ih r b]
      · rw [if_neg hc, if_neg hc, List.cons_append]

/-- `wordTok` itself does not look past a non-word, non-hyphen character. -/
theorem wordTok_append {w : Char} (hw1 : isWordChar w = false) (hw2 : w ≠ '-')
    (l b : Str) : wordTok (l ++ w :: b) = ((wordTok l).1, (wordTok l).2 ++ w :: b) := by
  show wordTokF (l ++ w :: b).length (l ++ w :: b) = _
  rw [wordTokF_append hw1 hw2 (l ++ w :: b).length l b]
  have : wordTokF (l ++ w :: b).length l = wordTokF l.length l :=
    wordTokF_congr _ _ l (by simp) (Nat.le_refl _)
  rw [this]
  rfl

/-- KEY LEMMA: tokens never span whitespace, so tokenizing distributes over
an append at a whitespace character. -/
theorem tokenize_append_ws : ∀ (n : Nat) (a : Str), a.length ≤ n →
    ∀ (w : Char) (b : Str), isWsC w = true →
      tokenize (a ++ w :: b) = tokenize a ++ tokenize b := by
  intro n
  induction n with
  | zero =>
    intro a ha w b hw
    have : a = [] := List.eq_nil_of_length_eq_zero (Nat.le_zero.mp ha)
    subst this
    rw [List.nil_append, tokenize_cons_ws hw]
    rfl
  | succ m ih =>
    intro a ha w b hw
    cases a with
    | nil =>
      rw [List.nil_append, tokenize_cons_ws hw]
      rfl
    | cons x a' =>
      simp only [List.length_cons] at ha
      by_cases hx : isWsC x = true
      · rw [List.cons_append, tokenize_cons_ws hx, tokenize_cons_ws hx]
        exact ih a' (by omega) w b hw
      · by_cases hxw : isWordChar x = true
        · have hwnw : isWordChar w = false := ws_not_wordChar hw
          have hwnh : w ≠ '-' := by
            intro hEq
            rw [hEq] at hw
            rw [hyphen_not_ws] at hw
            cases hw
          rw [List.cons_append, tokenize_cons_word hxw, tokenize_cons_word hxw]
          have happ := wordTok_append hwnw hwnh (x :: a') b
          rw [List.cons_append] at happ
          rw [happ]
          have hlt := @wordTok_snd_lt _ a' hxw
          simp only [List.length_cons] at hlt
          rw [ih ((wordTok (x :: a')).2) (by omega) w b hw]
          rfl
        · have hxp : isPunctC x = true :=
            punct_of_not_word_not_ws (by simpa using hxw) (by simpa using hx)
          have hwp : isPunctC w = false := by
            unfold isPunctC
            rw [hw]
            simp
          rw [List.cons_append, tokenize_cons_punct hxp, tokenize_cons_punct hxp]
          have htw := @takeWhile_append_not isPunctC _ hwp (x :: a') b
          rw [List.cons_append] at htw
          rw [htw]
          have hdw := @dropWhile_append_not isPunctC _ hwp (x :: a') b
          rw [List.cons_append] at hdw
          rw [hdw]
          have hdlen : ((x :: a').dropWhile isPunctC).length ≤ a'.length := by
            rw [List.dropWhile_cons, if_pos hxp]
            exact (List.dropWhile_suffix _).length_le
          rw [ih ((x :: a').dropWhile isPunctC) (by omega) w b hw]
          rfl

/-- Tokenizing ignores a whitespace-only string. -/
theorem tokenize_ws_only : ∀ (wrun : Str), (∀ c ∈ wrun, isWsC c = true) →
    tokenize wrun = [] := by
  intro wrun
  induction wrun with
  | nil => intro _; rfl
  | cons c t ih =>
    intro h
    rw [tokenize_cons_ws (h c (List.mem_cons_self c t))]
    exact ih (fun x hx => h x (List.mem_cons_of_mem _ hx))

/-- Tokenizing skips a whitespace-only prefix. -/
theorem tokenize_ws_append : ∀ (wrun : Str), (∀ c ∈ wrun, isWsC c = true) →
    ∀ (z : Str), tokenize (wrun ++ z) = tokenize z := by
  intro wrun
  induction wrun with
  | nil => intro _ z; rfl
  | cons c t ih =>
    intro h z
    rw [List.cons_append, tokenize_cons_ws (h c (List.mem_cons_self c t))]
    exact ih (fun x hx => h x (List.mem_cons_of_mem _ hx)) z

/-- Tokenizing distributes over an append at a non-empty whitespace run. -/
theorem tokenize_append_wsrun (a wrun z : Str) (hne : wrun ≠ [])
    (hws : ∀ c ∈ wrun, isWsC c = true) :
    tokenize (a ++ wrun ++ z) = tokenize a ++ tokenize z := by
  cases wrun with
  | nil => exact absurd rfl hne
  | cons c t =>
    rw [List.append_assoc, List.cons_append]
    rw [tokenize_append_ws a.length a (Nat.le_refl _) c (t ++ z)
      (hws c (List.mem_cons_self c t))]
    rw [tokenize_ws_append t (fun x hx => hws x (List.mem_cons_of_mem _ hx)) z]

/-- Tokenizing ignores leading whitespace (dropWhile form). -/
theorem tokenize_dropWhile_ws : ∀ (l : Str), tokenize (l.dropWhile isWsC) = tokenize l := by
  intro l
  induction l with
  | nil => rfl
  | cons c cs ih =>
    by_cases hc : isWsC c = true
    · rw [List.dropWhile_cons, if_pos hc, ih, tokenize_cons_ws hc]
    · rw [List.dropWhile_cons, if_neg hc]

/-- Tokenizing ignores stripping. -/
theorem tokenize_pyStrip (l : Str) : tokenize (pyStrip l) = tokenize l := by
  unfold pyStrip
  rw [← tokenize_dropWhile_ws l]
  set m := l.dropWhile isWsC with hm
  have hdecomp : m = m.rdropWhile isWsC ++ (m.reverse.takeWhile isWsC).reverse := by
    unfold List.rdropWhile
    conv_lhs => rw [← List.reverse_reverse m]
    conv_lhs => rw [← List.takeWhile_append_dropWhile isWsC m.reverse]
    rw [List.reverse_append]
  have htrail : ∀ c ∈ (m.reverse.takeWhile isWsC).reverse, isWsC c = true := by
    intro c hc
    rw [List.mem_reverse] at hc
    exact List.mem_takeWhile_imp hc
  conv_rhs => rw [hdecomp]
  rcases hE : (m.reverse.takeWhile isWsC).reverse with _ | ⟨c, t⟩
  · rw [List.append_nil]
  · rw [hE] at htrail
    rw [tokenize_append_ws (m.rdropWhile isWsC).length _ (Nat.le_refl _) c t
      (htrail c (List.mem_cons_self c t))]
    rw [tokenize_ws_only t (fun x hx => htrail x (List.mem_cons_of_mem _ hx))]
    rw [List.append_nil]

/-- Non-whitespace characters, as a Boolean predicate. -/
def nonWsB (c : Char) : Bool := !isWsC c

/-- The collapse worker copies a maximal non-whitespace run verbatim. -/
theorem collapseAux_false_run : ∀ (cs : Str),
    collapseAux false cs = cs.takeWhile nonWsB ++ collapseAux false (cs.dropWhile nonWsB) := by
  intro cs
  induction cs with
  | nil => rfl
  | cons c cs' ih =>
    by_cases hc : isWsC c = true
    · rw [List.takeWhile_cons, if_neg (by simp [nonWsB, hc]),
        List.dropWhile_cons, if_neg (by simp [nonWsB, hc]), List.nil_append]
    · rw [show collapseAux false (c :: cs') = c :: collapseAux false cs' by
        simp [collapseAux, hc]]
      rw [List.takeWhile_cons, if_pos (by simp [nonWsB, hc]),
        List.dropWhile_cons, if_pos (by simp [nonWsB, hc]), List.cons_append, ih]

/-- Collapsing whitespace runs does not change the token sequence. -/
theorem tokenize_collapseAux : ∀ (n : Nat) (l : Str), l.length ≤ n → ∀ (b : Bool),
    tokenize (collapseAux b l) = tokenize l := by
  intro n
  induction n with
  | zero =>
    intro l hl b
    have : l = [] := List.eq_nil_of_length_eq_zero (Nat.le_zero.mp hl)
    subst this
    cases b <;> rfl
  | succ m ih =>
    intro l hl b
    cases l with
    | nil => cases b <;> rfl
    | cons c cs =>
      simp only [List.length_cons] at hl
      by_cases hc : isWsC c = true
      · have hTrue : tokenize (collapseAux true cs) = tokenize cs :=
          ih cs (by omega) true
        cases b with
        | true =>
          rw [show collapseAux true (c :: cs) = collapseAux true cs by
            simp [collapseAux, hc]]
          rw [hTrue, tokenize_cons_ws hc]
        | false =>
          rw [show collapseAux false (c :: cs) = ' ' :: collapseAux true cs by
            simp [collapseAux, hc]]
          rw [tokenize_cons_ws (by decide), hTrue, tokenize_cons_ws hc]
      · rw [show collapseAux b (c :: cs) = c :: collapseAux false cs by
          cases b <;> simp [collapseAux, hc]]
        rw [collapseAux_false_run cs]
        have hsplit : c :: cs = (c :: cs.takeWhile nonWsB) ++ cs.dropWhile nonWsB := by
          rw [List.cons_append, List.takeWhile_append_dropWhile]
        rcases hz : cs.dropWhile nonWsB with _ | ⟨d, t⟩
        · conv_rhs => rw [hsplit, hz]
          rw [show collapseAux false ([] : Str) = [] from rfl]
          simp only [List.append_nil, List.cons_append]
        · have hd : isWsC d = true := by
            have := @dropWhile_head_false _ nonWsB _ _ _ hz
            simpa [nonWsB] using this
          have hzlen : (cs.dropWhile nonWsB).length ≤ cs.length :=
            (List.dropWhile_suffix _).length_le
          rw [hz] at hzlen
          simp only [List.length_cons] at hzlen
          rw [show collapseAux false (d :: t) = ' ' :: collapseAux true t by
            simp [collapseAux, hd]]
          rw [← List.cons_append]
          rw [tokenize_append_ws (c :: cs.takeWhile nonWsB).length _ (Nat.le_refl _)
            ' ' _ (by decide)]
          rw [ih t (by omega) true]
          conv_rhs => rw [hsplit, hz]
          rw [tokenize_append_ws (c :: cs.takeWhile nonWsB).length _ (Nat.le_refl _)
            d t hd]

/-- `collapseWs` does not change the token sequence. -/
theorem tokenize_collapseWs (l : Str) : tokenize (collapseWs l) = tokenize l :=
  tokenize_collapseAux l.length l (Nat.le_refl _) false

/-- Characters of `emitRun pend` are whitespace when `pend` is. -/
theorem emitRun_ws {pend : Str} (h : ∀ c ∈ pend, isWsC c = true) :
    ∀ c ∈ emitRun pend, isWsC c = true := by
  intro c hc
  unfold emitRun at hc
  by_cases hp : pend = []
  · rw [if_pos hp] at hc; simp at hc
  · rw [if_neg hp] at hc
    by_cases hn : pend.contains '\n' = true
    · rw [if_pos hn] at hc
      simp at hc
      subst hc
      decide
    · rw [if_neg hn] at hc
      exact h c (List.mem_reverse.mp hc)

/-- `emitRun` of a non-empty whitespace run is non-empty and starts with
whitespace. -/
theorem emitRun_ws_headed {pend : Str} (hne : pend ≠ [])
    (h : ∀ c ∈ pend, isWsC c = true) :
    ∃ e es, emitRun pend = e :: es ∧ isWsC e = true := by
  rcases hE : emitRun pend with _ | ⟨e, es⟩
  · exfalso
    unfold emitRun at hE
    rw [if_neg hne] at hE
    by_cases hn : pend.contains '\n' = true
    · rw [if_pos hn] at hE; cases hE
    · rw [if_neg hn] at hE
      exact hne (by simpa using congrArg List.reverse hE)
  · exact ⟨e, es, rfl, emitRun_ws h e (hE ▸ List.mem_cons_self e es)⟩

/-- The merge worker copies a maximal non-whitespace run verbatim. -/
theorem mergeNlAux_nil_run : ∀ (cs : Str),
    mergeNlAux [] cs = cs.takeWhile nonWsB ++ mergeNlAux [] (cs.dropWhile nonWsB) := by
  intro cs
  induction cs with
  | nil => rfl
  | cons c cs' ih =>
    by_cases hc : isWsC c = true
    · rw [List.takeWhile_cons, if_neg (by simp [nonWsB, hc]),
        List.dropWhile_cons, if_neg (by simp [nonWsB, hc]), List.nil_append]
    · rw [show mergeNlAux [] (c :: cs') = c :: mergeNlAux [] cs' by
        simp [mergeNlAux, emitRun, hc]]
      rw [List.takeWhile_cons, if_pos (by simp [nonWsB, hc]),
        List.dropWhile_cons, if_pos (by simp [nonWsB, hc]), List.cons_append, ih]

/-- With a non-empty whitespace accumulator, the merge worker's output is
non-empty and starts with whitespace. -/
theorem mergeNlAux_ws_headed : ∀ (t pend : Str), pend ≠ [] →
    (∀ c ∈ pend, isWsC c = true) →
    ∃ e es, mergeNlAux pend t = e :: es ∧ isWsC e = true := by
  intro t
  induction t with
  | nil =>
    intro pend hne h
    exact emitRun_ws_headed hne h
  | cons c cs ih =>
    intro pend hne h
    by_cases hc : isWsC c = true
    · rw [show mergeNlAux pend (c :: cs) = mergeNlAux (c :: pend) cs by
        simp [mergeNlAux, hc]]
      refine ih (c :: pend) (by simp) ?_
      intro x hx
      rcases List.mem_cons.mp hx with h' | h'
      · exact h' ▸ hc
      · exact h x h'
    · rw [show mergeNlAux pend (c :: cs) = emitRun pend ++ c :: mergeNlAux [] cs by
        simp [mergeNlAux, hc]]
      obtain ⟨e, es, hE, he⟩ := emitRun_ws_headed hne h
      exact ⟨e, es ++ c :: mergeNlAux [] cs, by rw [hE, List.cons_append], he⟩

/-- Merging newline runs does not change the token sequence. -/
theorem tokenize_mergeNlAux : ∀ (n : Nat) (l : Str), l.length ≤ n → ∀ (pend : Str),
    (∀ c ∈ pend, isWsC c = true) →
    tokenize (mergeNlAux pend l) = tokenize l := by
  intro n
  induction n with
  | zero =>
    intro l hl pend hp
    have : l = [] := List.eq_nil_of_length_eq_zero (Nat.le_zero.mp hl)
    subst this
    exact tokenize_ws_only _ (emitRun_ws hp)
  | succ m ih =>
    intro l hl pend hp
    cases l with
    | nil => exact tokenize_ws_only _ (emitRun_ws hp)
    | cons c cs =>
      simp only [List.length_cons] at hl
      by_cases hc : isWsC c = true
      · rw [show mergeNlAux pend (c :: cs) = mergeNlAux (c :: pend) cs by
          simp [mergeNlAux, hc]]
        rw [tokenize_cons_ws hc]
        refine ih cs (by omega) (c :: pend) ?_
        intro x hx
        rcases List.mem_cons.mp hx with h' | h'
        · exact h' ▸ hc
        · exact hp x h'
      · rw [show mergeNlAux pend (c :: cs) = emitRun pend ++ c :: mergeNlAux [] cs by
          simp [mergeNlAux, hc]]
        rw [tokenize_ws_append _ (emitRun_ws hp)]
        rw [mergeNlAux_nil_run cs]
        have hsplit : c :: cs = (c :: cs.takeWhile nonWsB) ++ cs.dropWhile nonWsB := by
          rw [List.cons_append, List.takeWhile_append_dropWhile]
        rcases hz : cs.dropWhile nonWsB with _ | ⟨d, t⟩
        · conv_rhs => rw [hsplit, hz]
          rw [show mergeNlAux [] ([] : Str) = [] from rfl]
          simp only [List.append_nil, List.cons_append]
        · have hd : isWsC d = true := by
            have := @dropWhile_head_false _ nonWsB _ _ _ hz
            simpa [nonWsB] using this
          have hzlen : (cs.dropWhile nonWsB).length ≤ cs.length :=
            (List.dropWhile_suffix _).length_le
          rw [hz] at hzlen
          simp only [List.length_cons] at hzlen
          rw [show mergeNlAux [] (d :: t) = mergeNlAux [d] t by
            simp [mergeNlAux, hd]]
          obtain ⟨e, es, hEes, he⟩ := mergeNlAux_ws_headed t [d] (by simp)
            (by intro x hx; simp at hx; exact hx ▸ hd)
          rw [hEes, ← List.cons_append]
          rw [tokenize_append_ws (c :: cs.takeWhile nonWsB).length _ (Nat.le_refl _)
            e es he]
          have hes : tokenize es = tokenize t := by
            have h1 : tokenize (mergeNlAux [d] t) = tokenize t :=
              ih t (by omega) [d] (by intro x hx; simp at hx; exact hx ▸ hd)
            rw [hEes, tokenize_cons_ws he] at h1
            exact h1
          rw [hes]
          conv_rhs => rw [hsplit, hz]
          rw [tokenize_append_ws (c :: cs.takeWhile nonWsB).length _ (Nat.le_refl _)
            d t hd]

/-- `mergeNl` does not change the token sequence. -/
theorem tokenize_mergeNl (l : Str) : tokenize (mergeNl l) = tokenize l :=
  tokenize_mergeNlAux l.length l (Nat.le_refl _) [] (by intro x hx; simp at hx)

/-- `sentSplitF` on the empty string. -/
theorem sentSplitF_nil : ∀ (f : Nat), sentSplitF f [] = [[]] := by
  intro f
  cases f with
  | zero => rfl
  | succ f' => rfl

/-- `sentSplitF` on a one-character string. -/
theorem sentSplitF_single : ∀ (f : Nat) (c : Char), sentSplitF f [c] = [[c]] := by
  intro f c
  cases f with
  | zero => rfl
  | succ f' => rfl

/-- Fuel irrelevance for the sentence splitter. -/
theorem sentSplitF_congr : ∀ (f g : Nat) (l : Str), l.length < f → l.length < g →
    sentSplitF f l = sentSplitF g l := by
  intro f
  induction f with
  | zero => intro g l hf _; exact absurd hf (Nat.not_lt_zero _)
  | succ f' ih =>
    intro g l hf hg
    cases g with
    | zero => exact absurd hg (Nat.not_lt_zero _)
    | succ g' =>
      match l with
      | [] => rw [sentSplitF_nil, sentSplitF_nil]
      | [c] => rw [sentSplitF_single, sentSplitF_single]
      | c :: d :: cs =>
        simp only [List.length_cons] at hf hg
        rw [sentSplitF, sentSplitF]
        by_cases hsp : (isTermC c && isWsC d) = true
        · rw [if_pos hsp, if_pos hsp]
          have hdl : ((d :: cs).dropWhile isWsC).length ≤ cs.length := by
            rcases Bool.and_eq_true_iff.mp hsp with ⟨_, hw⟩
            rw [List.dropWhile_cons, if_pos hw]
            exact (List.dropWhile_suffix _).length_le
          rw [ih g' _ (by omega) (by omega)]
        · rw [if_neg hsp, if_neg hsp]
          rw [ih g' (d :: cs) (by simp; omega) (by simp; omega)]

/-- Splitting step at a sentence boundary. -/
theorem sentSplit_cons_split {c d : Char} {cs : Str} (ht : isTermC c = true)
    (hw : isWsC d = true) :
    sentSplit (c :: d :: cs) = [c] :: sentSplit ((d :: cs).dropWhile isWsC) := by
  show sentSplitF ((c :: d :: cs).length + 1) (c :: d :: cs) = _
  simp only [List.length_cons]
  rw [sentSplitF, if_pos (by rw [ht, hw]; rfl)]
  congr 1
  apply sentSplitF_congr
  · have : ((d :: cs).dropWhile isWsC).length ≤ cs.length := by
      rw [List.dropWhile_cons, if_pos hw]
      exact (List.dropWhile_suffix _).length_le
    omega
  · omega

/-- Non-splitting step. -/
theorem sentSplit_cons_nosplit {c d : Char} {cs : Str}
    (h : (isTermC c && isWsC d) = false) :
    sentSplit (c :: d :: cs) =
      (match sentSplit (d :: cs) with
        | [] => [[c]]
        | s :: ss => (c :: s) :: ss) := by
  show sentSplitF ((c :: d :: cs).length + 1) (c :: d :: cs) = _
  simp only [List.length_cons]
  rw [sentSplitF, if_neg (by simp [h])]
  have : sentSplitF (cs.length + 1 + 1) (d :: cs) = sentSplit (d :: cs) := by
    apply sentSplitF_congr
    · simp
    · simp
  rw [this]

/-- The splitter never returns an empty list of sentences. -/
theorem sentSplitF_ne_nil : ∀ (f : Nat) (l : Str), sentSplitF f l ≠ [] := by
  intro f
  induction f with
  | zero => intro l; simp [sentSplitF]
  | succ f' ih =>
    intro l
    match l with
    | [] => rw [sentSplitF_nil]; simp
    | [c] => rw [sentSplitF_single]; simp
    | c :: d :: cs =>
      rw [sentSplitF]
      by_cases hsp : (isTermC c && isWsC d) = true
      · rw [if_pos hsp]; simp
      · rw [if_neg hsp]
        rcases hE : sentSplitF f' (d :: cs) with _ | ⟨s, ss⟩
        · simp
        · simp

/-- Decomposition of a sentence split: either there is no boundary, or the
input splits as first sentence + whitespace + remainder. -/
theorem sentSplit_decomp : ∀ (n : Nat) (l : Str), l.length ≤ n →
    sentSplit l = [l] ∨
      ∃ s w r, l = s ++ w ++ r ∧ w ≠ [] ∧ (∀ c ∈ w, isWsC c = true) ∧
        sentSplit l = s :: sentSplit r := by
  intro n
  induction n with
  | zero =>
    intro l hl
    have : l = [] := List.eq_nil_of_length_eq_zero (Nat.le_zero.mp hl)
    subst this
    exact Or.inl rfl
  | succ m ih =>
    intro l hl
    match l with
    | [] => exact Or.inl rfl
    | [c] => exact Or.inl rfl
    | c :: d :: cs =>
      simp only [List.length_cons] at hl
      by_cases hsp : (isTermC c && isWsC d) = true
      · rcases Bool.and_eq_true_iff.mp hsp with ⟨ht, hw⟩
        refine Or.inr ⟨[c], (d :: cs).takeWhile isWsC, (d :: cs).dropWhile isWsC,
          ?_, ?_, ?_, ?_⟩
        · rw [List.append_assoc, List.takeWhile_append_dropWhile]
          rfl
        · rw [List.takeWhile_cons, if_pos hw]
          simp
        · exact fun x hx => List.mem_takeWhile_imp hx
        · exact sentSplit_cons_split ht hw
      · have hmlen : (d :: cs).length ≤ m := by simp; omega
        rcases ih (d :: cs) hmlen with h1 | ⟨s', w, r, hEq, hwne, hws, hSS⟩
        · refine Or.inl ?_
          rw [sentSplit_cons_nosplit (by simpa using hsp), h1]
        · refine Or.inr ⟨c :: s', w, r, ?_, hwne, hws, ?_⟩
          · rw [List.cons_append, List.cons_append, ← hEq]
          · rw [sentSplit_cons_nosplit (by simpa using hsp), hSS]

/-- The token sequences of the sentences concatenate to the token sequence
of the whole line. -/
theorem sentSplit_flatMap_tokenize : ∀ (n : Nat) (l : Str), l.length ≤ n →
    (sentSplit l).flatMap tokenize = tokenize l := by
  intro n
  induction n with
  | zero =>
    intro l hl
    have : l = [] := List.eq_nil_of_length_eq_zero (Nat.le_zero.mp hl)
    subst this
    rfl
  | succ m ih =>
    intro l hl
    rcases sentSplit_decomp (m + 1) l hl with h1 | ⟨s, w, r, hEq, hwne, hws, hSS⟩
    · rw [h1]
      simp
    · rw [hSS, List.flatMap_cons]
      have hr : r.length ≤ m := by
        have := congrArg List.length hEq
        simp only [List.length_append] at this
        have hw1 : 1 ≤ w.length := by
          cases w with
          | nil => exact absurd rfl hwne
          | cons a t => simp
        omega
      rw [ih r hr, hEq, tokenize_append_wsrun s w r hwne hws]

/-- Characters of a sentence are characters of the split line. -/
theorem mem_sentSplit : ∀ (n : Nat) (l : Str), l.length ≤ n →
    ∀ s ∈ sentSplit l, ∀ c ∈ s, c ∈ l := by
  intro n
  induction n with
  | zero =>
    intro l hl s hs c hc
    have : l = [] := List.eq_nil_of_length_eq_zero (Nat.le_zero.mp hl)
    subst this
    simp [sentSplit, sentSplitF] at hs
    subst hs
    simp at hc
  | succ m ih =>
    intro l hl s hs c hc
    rcases sentSplit_decomp (m + 1) l hl with h1 | ⟨s', w, r, hEq, hwne, hws, hSS⟩
    · rw [h1] at hs
      simp at hs
      exact hs ▸ hc
    · rw [hSS] at hs
      have hr : r.length ≤ m := by
        have := congrArg List.length hEq
        simp only [List.length_append] at this
        have hw1 : 1 ≤ w.length := by
          cases w with
          | nil => exact absurd rfl hwne
          | cons a t => simp
        omega
      rcases List.mem_cons.mp hs with h' | h'
      · subst h'
        rw [hEq]
        exact List.mem_append.mpr (Or.inl (List.mem_append.mpr (Or.inl hc)))
      · rw [hEq]
        exact List.mem_append.mpr (Or.inr (ih r hr s h' c hc))

/-- `takeWhile` passes through a prefix that satisfies the predicate. -/
theorem takeWhile_all_append {p : Char → Bool} : ∀ (a : Str), (∀ c ∈ a, p c = true) →
    ∀ (b : Str), (a ++ b).takeWhile p = a ++ b.takeWhile p := by
  intro a
  induction a with
  | nil => intro _ b; rfl
  | cons x t ih =>
    intro h b
    rw [List.cons_append, List.takeWhile_cons, if_pos (h x (List.mem_cons_self x t)),
      ih (fun c hc => h c (List.mem_cons_of_mem _ hc)) b, List.cons_append]

/-- `dropWhile` drops a prefix that satisfies the predicate. -/
theorem dropWhile_all_append {p : Char → Bool} : ∀ (a : Str), (∀ c ∈ a, p c = true) →
    ∀ (b : Str), (a ++ b).dropWhile p = b.dropWhile p := by
  intro a
  induction a with
  | nil => intro _ b; rfl
  | cons x t ih =>
    intro h b
    rw [List.cons_append, List.dropWhile_cons, if_pos (h x (List.mem_cons_self x t)),
      ih (fun c hc => h c (List.mem_cons_of_mem _ hc)) b]

/-- An intercalation starts with the first segment. -/
theorem intercalate_head {b : Str} {S : List Str} :
    ∃ z : Str, List.intercalate ['-'] (b :: S) = b ++ z := by
  cases S with
  | nil => exact ⟨[], by simp [List.intercalate]⟩
  | cons b2 T =>
    exact ⟨'-' :: List.intercalate ['-'] (b2 :: T), intercalate_cons_of_ne_nil (by simp)⟩

/-- With adequate fuel, the word-token scanner consumes exactly a
word-shaped token, leaving a remainder that does not extend it. -/
theorem wordTokF_exact : ∀ (segs : List Str) (f : Nat) (rest : Str),
    segs ≠ [] → (∀ s ∈ segs, s ≠ [] ∧ ∀ c ∈ s, isWordChar c = true) →
    (List.intercalate ['-'] segs ++ rest).length ≤ f →
    (∀ h' t', rest = h' :: t' → isWordChar h' = false ∧ h' ≠ '-') →
    wordTokF f (List.intercalate ['-'] segs ++ rest) =
      (List.intercalate ['-'] segs, rest) := by
  intro segs
  induction segs with
  | nil => intro f rest hne _ _ _; exact absurd rfl hne
  | cons a S ih =>
    intro f rest _ hseg hfuel hrest
    have ha := hseg a (List.mem_cons_self a S)
    cases S with
    | nil =>
      have hia : List.intercalate ['-'] [a] = a := by simp [List.intercalate]
      rw [hia] at hfuel ⊢
      have hlen : 1 ≤ a.length := by
        cases hE : a with
        | nil => exact absurd hE ha.1
        | cons x xs => simp
      have hflen : 1 ≤ f := by
        simp only [List.length_append] at hfuel
        omega
      obtain ⟨f0, rfl⟩ : ∃ f0, f = f0 + 1 := ⟨f - 1, by omega⟩
      rw [wordTokF]
      rw [dropWhile_all_append a ha.2 rest, takeWhile_all_append a ha.2 rest]
      rcases hrE : rest with _ | ⟨h', t'⟩
      · simp
      · obtain ⟨hnw, hnh⟩ := hrest h' t' hrE
        rw [List.dropWhile_cons, if_neg (by simp [hnw]),
          List.takeWhile_cons, if_neg (by simp [hnw])]
        dsimp only
        rw [if_neg (by simp [hnh])]
        rw [List.append_nil]
    | cons b T =>
      have hib : List.intercalate ['-'] (a :: b :: T) =
          a ++ '-' :: List.intercalate ['-'] (b :: T) :=
        intercalate_cons_of_ne_nil (by simp)
      rw [hib] at hfuel ⊢
      have hlen : 1 ≤ a.length := by
        cases hE : a with
        | nil => exact absurd hE ha.1
        | cons x xs => simp
      have hflen : 1 ≤ f := by
        simp only [List.length_append, List.length_cons] at hfuel
        omega
      obtain ⟨f0, rfl⟩ : ∃ f0, f = f0 + 1 := ⟨f - 1, by omega⟩
      rw [wordTokF, List.append_assoc, List.cons_append]
      rw [dropWhile_all_append a ha.2 _, takeWhile_all_append a ha.2 _]
      rw [List.dropWhile_cons, if_neg (by simp [hyphen_not_wordChar]),
        List.takeWhile_cons, if_neg (by simp [hyphen_not_wordChar])]
      dsimp only
      have hbne := (hseg b (List.mem_cons_of_mem _ (List.mem_cons_self b T))).1
      obtain ⟨z, hz⟩ := @intercalate_head b T
      have hcond : (decide ('-' = '-') &&
          !((List.intercalate ['-'] (b :: T) ++ rest).takeWhile isWordChar).isEmpty) = true := by
        rw [hz]
        cases hbE : b with
        | nil => exact absurd hbE hbne
        | cons x xs =>
          rw [List.append_assoc, List.cons_append, List.takeWhile_cons,
            if_pos ((hseg b (List.mem_cons_of_mem _ (List.mem_cons_self b T))).2 x
              (hbE ▸ List.mem_cons_self x xs))]
          simp
      rw [if_pos hcond]
      have hrec := ih f0 rest (by simp) (fun s hs => hseg s (List.mem_cons_of_mem _ hs))
        (by simp only [List.length_append, List.length_cons] at hfuel ⊢; omega) hrest
      rw [hrec]
      simp

/-- Tokenizing a word-shaped token followed by a non-extending remainder. -/
theorem tokenize_wordShape_append {t rest : Str} (hws : WordShape t)
    (hrest : ∀ h' t', rest = h' :: t' → isWordChar h' = false ∧ h' ≠ '-') :
    tokenize (t ++ rest) = t :: tokenize rest := by
  obtain ⟨segs, hne, hseg, ht⟩ := hws
  rcases hE : t with _ | ⟨c, t0⟩
  · exact absurd hE (WordShape.ne_nil ⟨segs, hne, hseg, ht⟩)
  · have hc : isWordChar c = true := WordShape.head ⟨segs, hne, hseg, ht⟩ hE
    rw [List.cons_append, tokenize_cons_word hc]
    have hwEq : wordTok (c :: (t0 ++ rest)) = (t, rest) := by
      show wordTokF (c :: (t0 ++ rest)).length (c :: (t0 ++ rest)) = (t, rest)
      rw [show c :: (t0 ++ rest) = t ++ rest by rw [hE, List.cons_append]]
      rw [ht]
      exact wordTokF_exact segs _ rest hne hseg (Nat.le_refl _) hrest
    rw [hwEq]
    dsimp only
    rw [hE]

/-- Tokenizing a punctuation run followed by a non-extending remainder. -/
theorem tokenize_punct_append {q rest : Str} (hne : q ≠ [])
    (hq : ∀ c ∈ q, isPunctC c = true)
    (hrest : ∀ h' t', rest = h' :: t' → isPunctC h' = false) :
    tokenize (q ++ rest) = q :: tokenize rest := by
  rcases hE : q with _ | ⟨c, q0⟩
  · exact absurd hE hne
  · subst hE
    have hc : isPunctC c = true := hq c (List.mem_cons_self c q0)
    rw [List.cons_append, tokenize_cons_punct hc, ← List.cons_append]
    have htw : ((c :: q0) ++ rest).takeWhile isPunctC = c :: q0 := by
      rw [takeWhile_all_append (c :: q0) hq rest]
      rcases hrE : rest with _ | ⟨h', t'⟩
      · simp
      · rw [List.takeWhile_cons, if_neg (by simp [hrest h' t' hrE])]
        simp
    have hdw : ((c :: q0) ++ rest).dropWhile isPunctC = rest := by
      rw [dropWhile_all_append (c :: q0) hq rest]
      rcases hrE : rest with _ | ⟨h', t'⟩
      · rfl
      · rw [List.dropWhile_cons, if_neg (by simp [hrest h' t' hrE])]
    rw [htw, hdw]

/-- Python's `in` agrees with the infix relation. -/
theorem pyIn_iff : ∀ (s p : Str), pyIn p s = true ↔ p <:+: s := by
  intro s
  induction s with
  | nil =>
    intro p
    show p.isEmpty = true ↔ _
    rw [List.isEmpty_iff, List.infix_nil]
  | cons c cs ih =>
    intro p
    show (p.isPrefixOf (c :: cs) || pyIn p cs) = true ↔ _
    rw [Bool.or_eq_true, List.isPrefixOf_iff_prefix, ih p, List.infix_cons_iff]

/-- Characters of the `no_space_before` string are punctuation characters,
not word characters, and not hyphens. -/
theorem mem_noSpaceBefore_facts {c : Char} (h : c ∈ noSpaceBeforeStr) :
    isPunctC c = true ∧ isWordChar c = false ∧ c ≠ '-' ∧ isWsC c = false := by
  have : c = '.' ∨ c = '!' ∨ c = '?' ∨ c = ',' := by
    simpa [noSpaceBeforeStr] using h
  rcases this with rfl | rfl | rfl | rfl <;>
    exact ⟨by decide, by decide, by decide, by decide⟩

/-- A word-shaped token never attaches. -/
theorem wordShape_not_attach {p : Str} (h : WordShape p) :
    pyIn p noSpaceBeforeStr = false := by
  by_cases hin : pyIn p noSpaceBeforeStr = true
  · exfalso
    rcases hE : p with _ | ⟨c, t⟩
    · exact (WordShape.ne_nil h) hE
    · have hc : isWordChar c = true := WordShape.head h hE
      have hmem : c ∈ noSpaceBeforeStr := by
        refine List.IsInfix.mem (hE ▸ List.mem_cons_self c t) ?_
        exact (pyIn_iff _ _).mp hin
      rw [(mem_noSpaceBefore_facts hmem).2.1] at hc
      cases hc
  · simpa using hin

/-- A punctuation token starts with a non-word character, so the word-token
test fails on it. -/
theorem isWordTok_punct_false {q : Str} (hne : q ≠ [])
    (hq : ∀ c ∈ q, isPunctC c = true) : isWordTok q = false := by
  rcases hE : q with _ | ⟨c, t⟩
  · exact absurd hE hne
  · show isWordChar c = false
    exact punct_not_wordChar (hq c (hE ▸ List.mem_cons_self c t))

/-- Reassembled parts re-tokenize to themselves: every part is a
word-shaped or punctuation token, and no attaching punctuation part
directly follows a punctuation part. -/
theorem tokenize_joinParts : ∀ (ps : List Str),
    (∀ p ∈ ps, WordShape p ∨ (p ≠ [] ∧ ∀ c ∈ p, isPunctC c = true)) →
    List.Chain' (fun p q => isWordTok p = false → isWordTok q = false →
      pyIn q noSpaceBeforeStr = false) ps →
    tokenize (joinParts ps) = ps := by
  intro ps
  induction ps with
  | nil => intro _ _; rfl
  | cons p rest ih =>
    intro hfacts hchain
    cases rest with
    | nil =>
      show tokenize (p ++ [].flatMap sepPart) = [p]
      rw [List.flatMap_nil, List.append_nil]
      rcases hfacts p (List.mem_cons_self p []) with hw | ⟨hne, hq⟩
      · have h1 := @tokenize_wordShape_append _ [] hw (by intro h' t' h''; cases h'')
        rw [List.append_nil] at h1
        rw [h1]
        rfl
      · have h1 := @tokenize_punct_append _ [] hne hq (by intro h' t' h''; cases h'')
        rw [List.append_nil] at h1
        rw [h1]
        rfl
    | cons q rest' =>
      obtain ⟨hR, hchain'⟩ := List.chain'_cons.mp hchain
      have hfacts' : ∀ x ∈ q :: rest', WordShape x ∨ (x ≠ [] ∧ ∀ c ∈ x, isPunctC c = true) :=
        fun x hx => hfacts x (List.mem_cons_of_mem _ hx)
      have hihq := ih hfacts' hchain'
      show tokenize (p ++ (q :: rest').flatMap sepPart) = p :: q :: rest'
      rw [List.flatMap_cons]
      by_cases hin : pyIn q noSpaceBeforeStr = true
      · have hqfacts : q ≠ [] ∧ ∀ c ∈ q, isPunctC c = true := by
          rcases hfacts' q (List.mem_cons_self q rest') with hwq | h'
          · rw [wordShape_not_attach hwq] at hin
            cases hin
          · exact h'
        have hpword : WordShape p := by
          rcases hfacts p (List.mem_cons_self p _) with hwp | ⟨hnep, hqp⟩
          · exact hwp
          · exfalso
            have := hR (isWordTok_punct_false hnep hqp)
              (isWordTok_punct_false hqfacts.1 hqfacts.2)
            rw [this] at hin
            cases hin
        rw [show sepPart q = q from by simp [sepPart, hin]]
        have hcond : ∀ h' t', q ++ rest'.flatMap sepPart = h' :: t' →
            isWordChar h' = false ∧ h' ≠ '-' := by
          intro h' t' hE
          rcases hqE : q with _ | ⟨qc, q0⟩
          · exact absurd hqE hqfacts.1
          · rw [hqE, List.cons_append] at hE
            injection hE with h1 _
            subst h1
            have hmem : qc ∈ noSpaceBeforeStr := by
              refine List.IsInfix.mem (hqE ▸ List.mem_cons_self qc q0) ?_
              exact (pyIn_iff _ _).mp hin
            exact ⟨(mem_noSpaceBefore_facts hmem).2.1, (mem_noSpaceBefore_facts hmem).2.2.1⟩
        rw [tokenize_wordShape_append hpword hcond]
        rw [show q ++ rest'.flatMap sepPart = joinParts (q :: rest') from rfl, hihq]
      · have hinf : pyIn q noSpaceBeforeStr = false := by simpa using hin
        rw [show sepPart q = ' ' :: q from by simp [sepPart, hinf]]
        have hX : tokenize (' ' :: (q ++ rest'.flatMap sepPart)) = q :: rest' := by
          rw [tokenize_cons_ws (by decide)]
          rw [show q ++ rest'.flatMap sepPart = joinParts (q :: rest') from rfl, hihq]
        rcases hfacts p (List.mem_cons_self p _) with hwp | ⟨hnep, hqp⟩
        · rw [tokenize_wordShape_append hwp (by
            intro h' t' hE
            injection hE with h1 _
            subst h1
            exact ⟨by decide, by decide⟩)]
          rw [List.cons_append, hX]
        · rw [tokenize_punct_append hnep hqp (by
            intro h' t' hE
            injection hE with h1 _
            subst h1
            decide)]
          rw [List.cons_append, hX]

/-- Characters of the merge worker's output are spaces or input/accumulator
characters. -/
theorem mem_mergeNlAux : ∀ (l pend : Str) (c : Char), c ∈ mergeNlAux pend l →
    c = ' ' ∨ c ∈ l ∨ c ∈ pend := by
  intro l
  induction l with
  | nil =>
    intro pend c h
    unfold mergeNlAux emitRun at h
    by_cases hp : pend = []
    · rw [if_pos hp] at h; simp at h
    · rw [if_neg hp] at h
      by_cases hn : pend.contains '\n' = true
      · rw [if_pos hn] at h
        simp at h
        exact Or.inl h
      · rw [if_neg hn] at h
        exact Or.inr (Or.inr (List.mem_reverse.mp h))
  | cons a t ih =>
    intro pend c h
    by_cases ha : isWsC a = true
    · rw [show mergeNlAux pend (a :: t) = mergeNlAux (a :: pend) t by
        simp [mergeNlAux, ha]] at h
      rcases ih (a :: pend) c h with h' | h' | h'
      · exact Or.inl h'
      · exact Or.inr (Or.inl (List.mem_cons_of_mem _ h'))
      · rcases List.mem_cons.mp h' with h'' | h''
        · exact Or.inr (Or.inl (h'' ▸ List.mem_cons_self a t))
        · exact Or.inr (Or.inr h'')
    · rw [show mergeNlAux pend (a :: t) = emitRun pend ++ a :: mergeNlAux [] t by
        simp [mergeNlAux, ha]] at h
      rcases List.mem_append.mp h with h' | h'
      · unfold emitRun at h'
        by_cases hp : pend = []
        · rw [if_pos hp] at h'; simp at h'
        · rw [if_neg hp] at h'
          by_cases hn : pend.contains '\n' = true
          · rw [if_pos hn] at h'
            simp at h'
            exact Or.inl h'
          · rw [if_neg hn] at h'
            exact Or.inr (Or.inr (List.mem_reverse.mp h'))
      · rcases List.mem_cons.mp h' with h'' | h''
        · exact Or.inr (Or.inl (h'' ▸ List.mem_cons_self a t))
        · rcases ih [] c h'' with h3 | h3 | h3
          · exact Or.inl h3
          · exact Or.inr (Or.inl (List.mem_cons_of_mem _ h3))
          · simp at h3

/-- A string whose strip is empty is all whitespace. -/
theorem all_ws_of_pyStrip_nil {l : Str} (h : pyStrip l = []) :
    ∀ c ∈ l, isWsC c = true := by
  unfold pyStrip at h
  have hdw : ∀ c ∈ l.dropWhile isWsC, isWsC c = true := by
    intro c hc
    exact List.rdropWhile_eq_nil_iff.mp h c hc
  intro c hc
  conv at hc => rw [← List.takeWhile_append_dropWhile isWsC l]
  rcases List.mem_append.mp hc with h' | h'
  · exact List.mem_takeWhile_imp h'
  · exact hdw c h'

/-- A chain over a `flatMap` restricts to each piece. -/
theorem chain'_flatMap_mem {α β : Type} {R : β → β → Prop} {f : α → List β} :
    ∀ (xs : List α), List.Chain' R (xs.flatMap f) → ∀ x ∈ xs, List.Chain' R (f x) := by
  intro xs
  induction xs with
  | nil => intro _ x hx; simp at hx
  | cons a t ih =>
    intro h x hx
    rw [List.flatMap_cons] at h
    rcases List.chain'_append.mp h with ⟨h1, h2, _⟩
    rcases List.mem_cons.mp hx with h' | h'
    · exact h' ▸ h1
    · exact ih h2 x h'

/-- Weaken a chain relation using membership. -/
theorem chain'_imp_mem {α : Type} {R S : α → α → Prop} :
    ∀ (l : List α), (∀ a ∈ l, ∀ b ∈ l, R a b → S a b) → List.Chain' R l →
      List.Chain' S l := by
  intro l
  induction l with
  | nil => intro _ _; exact List.chain'_nil
  | cons a t ih =>
    intro h hc
    rcases List.chain'_cons'.mp hc with ⟨h1, h2⟩
    rw [List.chain'_cons']
    refine ⟨?_, ih (fun x hx y hy => h x (List.mem_cons_of_mem _ hx)
      y (List.mem_cons_of_mem _ hy)) h2⟩
    intro y hy
    exact h a (List.mem_cons_self a t) y
      (List.mem_cons_of_mem _ (List.mem_of_mem_head? hy)) (h1 y hy)

/-- Tokenizing a newline-joined list of lines concatenates their token
sequences. -/
theorem tokenize_intercalate_nl : ∀ (ls : List Str),
    tokenize (List.intercalate ['\n'] ls) = ls.flatMap tokenize := by
  intro ls
  induction ls with
  | nil => rfl
  | cons a t ih =>
    cases t with
    | nil =>
      rw [show List.intercalate ['\n'] [a] = a by simp [List.intercalate]]
      simp
    | cons b t' =>
      rw [intercalate_cons_of_ne_nil (by simp), List.flatMap_cons]
      rw [tokenize_append_ws a.length a (Nat.le_refl _) '\n' _ (by decide)]
      rw [ih]

/-- Every token of `tokenize` is word-shaped or a punctuation run. -/
theorem tokenize_facts {l t : Str} (ht : t ∈ tokenize l) :
    WordShape t ∨ (t ≠ [] ∧ ∀ c ∈ t, isPunctC c = true) :=
  tokF_facts (l.length + 1) l t ht

/-- Unfolding of the per-sentence pipeline body at the default options. -/
theorem processSentence_eq (sen : Str) :
    processSentence true true sen =
      (if pyStrip sen = [] then none
       else if remove_references (remove_verse_numbers (pyStrip sen)) = [] then none
       else some ( _first_letters_for_line
         (remove_references (remove_verse_numbers (pyStrip sen))))) := rfl

/-- On a digit-free sentence the cleanup passes keep the token sequence. -/
theorem tokenize_s3 {sen : Str} (hd : ∀ c ∈ sen, isDigitC c = false) :
    tokenize (remove_references (remove_verse_numbers (pyStrip sen))) = tokenize sen := by
  have hd1 : ∀ c ∈ pyStrip sen, isDigitC c = false :=
    fun c hc => hd c (mem_of_pyStrip hc)
  have hrvn : remove_verse_numbers (pyStrip sen) = pyStrip sen := by
    unfold remove_verse_numbers
    rw [verseSub_eq_self hd1, pyStrip_idem]
  rw [hrvn]
  unfold remove_references
  rw [refSub_eq_self hd1, tokenize_pyStrip, tokenize_collapseWs, tokenize_pyStrip]

/-- On a sentence with no attaching punctuation after punctuation, the
abbreviated line re-tokenizes to the abbreviated tokens. -/
theorem tokenize_flfl {s3 sen : Str}
    (hts3 : tokenize s3 = tokenize sen)
    (hch : List.Chain' (fun t u => isWordTok t = false → isWordTok u = false →
      pyIn u noSpaceBeforeStr = false) (tokenize sen)) :
    tokenize ( _first_letters_for_line s3) = (tokenize sen).map abbrevToken := by
  unfold _first_letters_for_line
  have hfacts : ∀ p ∈ (tokenize s3).map abbrevToken,
      WordShape p ∨ (p ≠ [] ∧ ∀ c ∈ p, isPunctC c = true) := by
    intro p hp
    rw [List.mem_map] at hp
    obtain ⟨t, ht, rfl⟩ := hp
    rcases tokenize_facts ht with hw | ⟨hne, hq⟩
    · exact Or.inl (abbrevToken_wordShape hw)
    · rw [abbrevToken_punct hne hq]
      exact Or.inr ⟨hne, hq⟩
  have hchain : List.Chain' (fun p q => isWordTok p = false → isWordTok q = false →
      pyIn q noSpaceBeforeStr = false) ((tokenize s3).map abbrevToken) := by
    rw [List.chain'_map]
    refine chain'_imp_mem _ ?_ (by rw [hts3]; exact hch)
    intro t ht u hu hR h1 h2
    rcases tokenize_facts hu with hwu | ⟨hneu, hqu⟩
    · rw [isWordTok_of_wordShape (abbrevToken_wordShape hwu)] at h2
      cases h2
    · rw [abbrevToken_punct hneu hqu] at h2 ⊢
      rcases tokenize_facts ht with hwt | ⟨hnet, hqt⟩
      · rw [isWordTok_of_wordShape (abbrevToken_wordShape hwt)] at h1
        cases h1
      · rw [abbrevToken_punct hnet hqt] at h1
        exact hR h1 h2
  rw [tokenize_joinParts _ hfacts hchain, hts3]

/-- A line abbreviated from a sentence with tokens is non-empty. -/
theorem flfl_ne_nil_of_tokens {l : Str} (h : tokenize l ≠ []) :
    _first_letters_for_line l ≠ [] := by
  unfold _first_letters_for_line
  rcases hE : tokenize l with _ | ⟨t, ts⟩
  · exact absurd hE h
  · have hne : abbrevToken t ≠ [] := by
      have hmem : t ∈ tokenize l := by rw [hE]; exact List.mem_cons_self t ts
      rcases tokenize_facts hmem with hw | ⟨hne, hq⟩
      · exact (abbrevToken_wordShape hw).ne_nil
      · rw [abbrevToken_punct hne hq]
        exact hne
    rw [List.map_cons]
    show abbrevToken t ++ _ ≠ []
    intro hcontra
    rcases List.append_eq_nil.mp hcontra with ⟨h1, _⟩
    exact hne h1

/-- Assembling the filtered per-sentence results: the concatenated token
sequences equal the abbreviated token sequences of all sentences. -/
theorem assembly : ∀ (sents : List Str),
    (∀ sen ∈ sents, (∀ c ∈ sen, isDigitC c = false) ∧
      List.Chain' (fun t u => isWordTok t = false → isWordTok u = false →
        pyIn u noSpaceBeforeStr = false) (tokenize sen)) →
    (((sents.filterMap (processSentence true true)).filter
        (fun r => !r.isEmpty)).flatMap tokenize)
      = sents.flatMap (fun s => (tokenize s).map abbrevToken) := by
  intro sents
  induction sents with
  | nil => intro _; rfl
  | cons sen rest ih =>
    intro h
    obtain ⟨hd, hch⟩ := h sen (List.mem_cons_self sen rest)
    have hrest := fun s hs => h s (List.mem_cons_of_mem _ hs)
    rw [List.filterMap_cons, List.flatMap_cons]
    rcases hP : processSentence true true sen with _ | line
    · dsimp only
      have hts : tokenize sen = [] := by
        rw [processSentence_eq] at hP
        by_cases h1 : pyStrip sen = []
        · exact tokenize_ws_only sen (all_ws_of_pyStrip_nil h1)
        · rw [if_neg h1] at hP
          by_cases h2 : remove_references (remove_verse_numbers (pyStrip sen)) = []
          · rw [← tokenize_s3 hd, h2]
            rfl
          · rw [if_neg h2] at hP
            cases hP
      rw [hts]
      simp only [List.map_nil, List.nil_append]
      exact ih hrest
    · rw [processSentence_eq] at hP
      by_cases h1 : pyStrip sen = []
      · rw [if_pos h1] at hP; cases hP
      · rw [if_neg h1] at hP
        have hts3 := tokenize_s3 hd
        generalize hg : remove_references (remove_verse_numbers (pyStrip sen)) = s3 at hP hts3
        by_cases h2 : s3 = []
        · rw [if_pos h2] at hP; cases hP
        · rw [if_neg h2] at hP
          injection hP with hline
          have htl : tokenize line = (tokenize sen).map abbrevToken := by
            rw [← hline]
            exact tokenize_flfl hts3 hch
          dsimp only
          rcases hlE : line with _ | ⟨lc, lt⟩
          · subst hlE
            have hts : tokenize sen = [] := by
              have h3 : ([] : List Str) = (tokenize sen).map abbrevToken := htl
              exact List.map_eq_nil_iff.mp h3.symm
            rw [hts]
            simp only [List.map_nil, List.nil_append]
            rw [List.filter_cons]
            rw [if_neg (by decide)]
            exact ih hrest
          · rw [hlE] at htl
            rw [List.filter_cons]
            rw [if_pos (by simp)]
            rw [List.flatMap_cons, htl, ih hrest]

/-- C9 (amended): for a digit-free input in which no punctuation token that
is a contiguous substring of `.!?,` immediately follows another punctuation
token, the token sequence of the pipeline output equals the input's token
sequence with every word token abbreviated; in particular the two token
sequences have equal length and the relative order of tokens is preserved. -/
theorem C9_token_alignment {text : Str}
    (hd : ∀ c ∈ text, isDigitC c = false)
    (hch : List.Chain' (fun t u => isWordTok t = false → isWordTok u = false →
      pyIn u noSpaceBeforeStr = false) (tokenize text)) :
    tokenize (summarize text) = (tokenize text).map abbrevToken ∧
      (tokenize (summarize text)).length = (tokenize text).length := by
  have hmerged : tokenize (mergeNl (pyStrip text)) = tokenize text := by
    rw [tokenize_mergeNl, tokenize_pyStrip]
  have hflat : (sentSplit (mergeNl (pyStrip text))).flatMap tokenize
      = tokenize text := by
    rw [sentSplit_flatMap_tokenize (mergeNl (pyStrip text)).length _ (Nat.le_refl _),
      hmerged]
  have hyp : ∀ sen ∈ sentSplit (mergeNl (pyStrip text)),
      (∀ c ∈ sen, isDigitC c = false) ∧
      List.Chain' (fun t u => isWordTok t = false → isWordTok u = false →
        pyIn u noSpaceBeforeStr = false) (tokenize sen) := by
    intro sen hsen
    constructor
    · intro c hc
      have hcm : c ∈ mergeNl (pyStrip text) :=
        mem_sentSplit (mergeNl (pyStrip text)).length _ (Nat.le_refl _) sen hsen c hc
      rcases mem_mergeNlAux _ [] c hcm with h' | h' | h'
      · subst h'; decide
      · exact hd c (mem_of_pyStrip h')
      · simp at h'
    · exact chain'_flatMap_mem _ (by rw [hflat]; exact hch) sen hsen
  have hmain : tokenize (summarize text) = (tokenize text).map abbrevToken := by
    show tokenize (List.intercalate ['\n']
      (((sentSplit (mergeNl (pyStrip text))).filterMap
        (processSentence true true)).filter (fun r => !r.isEmpty)))
      = (tokenize text).map abbrevToken
    rw [tokenize_intercalate_nl, assembly _ hyp, ← List.map_flatMap, hflat]
  exact ⟨hmain, by rw [hmain, List.length_map]⟩

/-- Witness: the theorem applied at the concrete input `ab cd. ef`, whose
output `a c.` + newline + `e` has the abbreviated tokens in order. -/
theorem C9_token_alignment_witness :
    (∀ c ∈ ("ab cd. ef".data), isDigitC c = false) ∧
    List.Chain' (fun t u => isWordTok t = false → isWordTok u = false →
      pyIn u noSpaceBeforeStr = false) (tokenize ("ab cd. ef".data)) ∧
    (tokenize (summarize ("ab cd. ef".data)) =
      (tokenize ("ab cd. ef".data)).map abbrevToken ∧
      (tokenize (summarize ("ab cd. ef".data))).length =
        (tokenize ("ab cd. ef".data)).length) := by
  have hch : List.Chain' (fun t u => isWordTok t = false → isWordTok u = false →
      pyIn u noSpaceBeforeStr = false) (tokenize ("ab cd. ef".data)) := by
    have h : tokenize ("ab cd. ef".data) =
        [['a', 'b'], ['c', 'd'], ['.'], ['e', 'f']] := by decide
    rw [h]
    refine List.chain'_cons.mpr ⟨fun h1 _ => absurd h1 (by decide),
      List.chain'_cons.mpr ⟨fun h1 _ => absurd h1 (by decide),
      List.chain'_cons.mpr ⟨fun _ h2 => absurd h2 (by decide),
      List.chain'_singleton _⟩⟩⟩
  exact ⟨by decide, hch, C9_token_alignment (by decide) hch⟩
